import Mathlib

/-!
# JAHysteresisScheduler: a shallow embedding

Source: `juce_plugin/Source/JAHysteresisScheduler.{h,cpp}`.

Modelling conventions.

* A C++ `double` is a rational number and every arithmetic operation is exact
  (no rounding, no NaN, no infinities).  Decimal literals (`0.18`, `1.0e-6`)
  denote their decimal value.  Division is the total division of `ℚ`
  (`x / 0 = 0`).
* `kTwoPi` is the value of the `double` constant `std::numbers::pi * 2.0`,
  which is a dyadic rational.
* `std::sin` is a parameter `sinF : ℚ → ℚ` of `process`.
* A C++ `int` is an `Int` (no wrap-around); `static_cast<int>(std::floor x)` is
  `⌊x⌋`.
* Member functions become functions from the state before to the state after.
  `process` additionally returns a log with one entry per call of
  `executeSubstep` (the offset passed in and the magnetisation committed);
  the log is an observation only, nothing in the model reads it.
-/

namespace JAHysteresisScheduler

/-! ## Data model (JAHysteresisScheduler.h) -/

/-- The enum `Mode`. -/
inductive Mode where
  | K32
  | K48
  | K60
  deriving DecidableEq, Repr

/-- The enum `Quality`. -/
inductive Quality where
  | Eco
  | Normal
  | Ultra
  deriving DecidableEq, Repr

/-- The struct `PhysicsParams`, with its member defaults. -/
structure PhysicsParams where
  Ms : ℚ := 320
  aDensity : ℚ := 720
  kPinning : ℚ := 280
  cReversibility : ℚ := 18 / 100
  alphaCoupling : ℚ := 15 / 1000
  deriving DecidableEq, Repr

/-- The private members of the class, with their default member initialisers. -/
structure State where
  sampleRate : ℚ := 48000
  currentMode : Mode := Mode.K32
  physics : PhysicsParams := {}
  biasLevel : ℚ := 4 / 10
  biasScale : ℚ := 11
  MsSafe : ℚ := 1
  alphaNorm : ℚ := 0
  aNorm : ℚ := 1
  invANorm : ℚ := 1
  kNorm : ℚ := 0
  cNorm : ℚ := 0
  biasAmplitude : ℚ := 0
  biasCyclesPerSample : ℚ := 2
  substepsPerCycle : ℤ := 12
  biasPhase : ℚ := 0
  substepPhase : ℚ := 0
  qualityMode : Quality := Quality.Normal
  substepCursor : ℚ := 0
  MPrev : ℚ := 0
  HPrev : ℚ := 0

/-- A freshly constructed instance: every member has its default. -/
def fresh : State := {}

/-! ## Library functions used by the source -/

/-- The constant `kTwoPi = std::numbers::pi * 2.0` (the exact value of that double). -/
def kTwoPi : ℚ := 884279719003555 / 140737488355328

/-- The function `std::max` on doubles: `(a < b) ? b : a`. -/
def fmax (a b : ℚ) : ℚ := if a < b then b else a

/-- The function `std::max` on ints. -/
def imax (a b : ℤ) : ℤ := if a < b then b else a

/-- The function `std::clamp`: `(v < lo) ? lo : (hi < v) ? hi : v`. -/
def clamp (v lo hi : ℚ) : ℚ := if v < lo then lo else if hi < v then hi else v

/-- Rounding toward zero. -/
def truncQ (q : ℚ) : ℤ := if 0 ≤ q then ⌊q⌋ else ⌈q⌉

/-- The function `std::fmod`: `x - y * trunc (x / y)`. -/
def fmod (x y : ℚ) : ℚ := x - y * (truncQ (x / y) : ℚ)

/-! ## Member functions (JAHysteresisScheduler.cpp) -/

/-- The member `reset`. -/
def reset (s : State) : State :=
  { s with biasPhase := 0, MPrev := 0, HPrev := 0, substepCursor := 0 }

/-- The member `updateDerived`. -/
def updateDerived (s : State) : State :=
  let MsSafe := fmax s.physics.Ms (1 / 1000000)
  let aNorm := s.physics.aDensity / MsSafe
  { s with
    MsSafe := MsSafe
    alphaNorm := s.physics.alphaCoupling
    aNorm := aNorm
    invANorm := 1 / fmax aNorm (1 / 1000000000)
    kNorm := s.physics.kPinning / MsSafe
    cNorm := s.physics.cReversibility
    biasAmplitude := s.biasLevel * s.biasScale }

/-- First switch of `updateModeDerived`: `biasCyclesPerSample` for the mode. -/
def modeCycles : Mode → ℚ
  | Mode.K32 => 2
  | Mode.K48 => 3
  | Mode.K60 => 3

/-- First switch of `updateModeDerived`: `(ecoSteps, normalSteps, ultraSteps)` for the mode. -/
def modeSteps : Mode → ℤ × ℤ × ℤ
  | Mode.K32 => (16, 18, 20)
  | Mode.K48 => (16, 18, 19)
  | Mode.K60 => (20, 22, 24)

/-- Second switch of `updateModeDerived`: the entry selected by the quality. -/
def qualitySteps (q : Quality) (t : ℤ × ℤ × ℤ) : ℤ :=
  match q with
  | Quality.Eco => t.1
  | Quality.Ultra => t.2.2
  | Quality.Normal => t.2.1

/-- The member `updateModeDerived`. -/
def updateModeDerived (s : State) : State :=
  let steps := imax (qualitySteps s.qualityMode (modeSteps s.currentMode)) 4
  let s1 : State :=
    { s with
      biasCyclesPerSample := modeCycles s.currentMode
      substepsPerCycle := steps
      substepPhase := kTwoPi / (steps : ℚ) }
  if s1.substepCursor ≥ 1 then
    { s1 with substepCursor := fmod s1.substepCursor 1 }
  else s1

/-- The member `initialise`. -/
def initialise (s : State) (newSampleRate : ℚ) (mode : Mode) (newPhysics : PhysicsParams) :
    State :=
  let s1 : State :=
    { s with
      sampleRate := fmax 1 newSampleRate
      currentMode := mode
      physics := newPhysics
      biasLevel := clamp s.biasLevel 0 1 }
  updateModeDerived (updateDerived (reset s1))

/-- The member `setMode`. -/
def setMode (s : State) (mode : Mode) : State :=
  if s.currentMode = mode then s
  else updateModeDerived { s with currentMode := mode }

/-- The member `setPhysics`. -/
def setPhysics (s : State) (newPhysics : PhysicsParams) : State :=
  updateDerived { s with physics := newPhysics }

/-- The member `setBiasControls`. -/
def setBiasControls (s : State) (level scale : ℚ) : State :=
  updateDerived { s with biasLevel := clamp level 0 1, biasScale := fmax scale 0 }

/-- The member `setQuality`. -/
def setQuality (s : State) (quality : Quality) : State :=
  updateModeDerived { s with qualityMode := quality }

/-- The member `fastTanh`. -/
def fastTanh (x : ℚ) : ℚ :=
  let clamped := clamp x (-3) 3
  let x2 := clamped * clamped
  clamped * (27 + x2) / (27 + 9 * x2)

/-- The local `MNew` of `executeSubstep`, as a function of the state and the arguments. -/
def substepMNew (s : State) (biasOffset HAudio : ℚ) : ℚ :=
  let HNew := HAudio + s.biasAmplitude * biasOffset
  let dH := HNew - s.HPrev
  let He := HNew + s.alphaNorm * s.MPrev
  let xMan := He * s.invANorm
  let ManE := fastTanh xMan
  let ManE2 := ManE * ManE
  let dMan_dH := (1 - ManE2) * s.invANorm
  let dir : ℚ := if dH ≥ 0 then 1 else -1
  let pin := dir * s.kNorm - s.alphaNorm * (ManE - s.MPrev)
  let invPin := 1 / (pin + 1 / 1000000)
  let denom := 1 - s.cNorm * s.alphaNorm * dMan_dH
  let invDenom := 1 / (denom + 1 / 1000000000)
  let dMdH := (s.cNorm * dMan_dH + (ManE - s.MPrev) * invPin) * invDenom
  let dMStep := dMdH * dH
  clamp (s.MPrev + dMStep) (-1) 1

/-- The member `executeSubstep`; the reference argument `magnetisationSum` is threaded through
as the second component. -/
def executeSubstep (s : State) (biasOffset HAudio magnetisationSum : ℚ) : State × ℚ :=
  let HNew := HAudio + s.biasAmplitude * biasOffset
  let MNew := substepMNew s biasOffset HAudio
  ({ s with MPrev := MNew, HPrev := HNew }, magnetisationSum + MNew)

/-- One logged call of `executeSubstep`: the offset it was given and the `MNew` it committed. -/
structure SubstepLog where
  biasOffset : ℚ
  MNew : ℚ
  deriving DecidableEq, Repr

/-- The variables live in the loop of `process`. -/
structure LoopVars where
  phase : ℚ
  st : State
  magnetisationSum : ℚ
  log : List SubstepLog

/-- One iteration of the `for` loop of `process`. -/
def loopBody (sinF : ℚ → ℚ) (HAudio : ℚ) (a : LoopVars) : LoopVars :=
  let midpoint := fmod (a.phase + a.st.substepPhase * (1 / 2)) kTwoPi
  let biasOffset := sinF midpoint
  let r := executeSubstep a.st biasOffset HAudio a.magnetisationSum
  let phase := a.phase + a.st.substepPhase
  let phase := if phase ≥ kTwoPi then phase - kTwoPi else phase
  { phase := phase
    st := r.1
    magnetisationSum := r.2
    log := a.log ++ [{ biasOffset := biasOffset, MNew := r.1.MPrev }] }

/-- The `for` loop of `process`, run for `n` iterations. -/
def substepLoop (sinF : ℚ → ℚ) (HAudio : ℚ) : ℕ → LoopVars → LoopVars
  | 0, a => a
  | n + 1, a => substepLoop sinF HAudio n (loopBody sinF HAudio a)

/-- What one call of `process` does: the state after, the value returned, and the log of the
calls of `executeSubstep` it made. -/
structure ProcessResult where
  state : State
  output : ℚ
  log : List SubstepLog

/-- Lines 66-67 of `process`: the local `stepsTaken` as first computed (before the forced
catch-up step may set it to 1). -/
def stepsDue (s : State) : ℤ :=
  ⌊s.substepCursor + s.biasCyclesPerSample * (s.substepsPerCycle : ℚ)⌋

/-- Lines 66-68 of `process`: the cursor takes the ratio in and gives the whole steps out. -/
def processCursor (s : State) : State :=
  { s with
    substepCursor :=
      s.substepCursor + s.biasCyclesPerSample * (s.substepsPerCycle : ℚ) - (stepsDue s : ℚ) }

/-- Lines 70-81 of `process`: the loop, entered with `phase = biasPhase` and an empty sum. -/
def processLoop (sinF : ℚ → ℚ) (s : State) (HAudio : ℚ) : LoopVars :=
  substepLoop sinF HAudio (stepsDue s).toNat
    { phase := s.biasPhase, st := processCursor s, magnetisationSum := 0, log := [] }

/-- Lines 84-88 of `process`: the phase advances by the leftover fraction and is stored. -/
def processPhase (sinF : ℚ → ℚ) (s : State) (HAudio : ℚ) : State :=
  let a := processLoop sinF s HAudio
  let phase := a.phase + a.st.substepCursor * a.st.substepPhase
  let phase := if phase ≥ kTwoPi then fmod phase kTwoPi else phase
  { a.st with biasPhase := phase }

/-- The member `process`. -/
def process (sinF : ℚ → ℚ) (s : State) (HAudio : ℚ) : ProcessResult :=
  let a := processLoop sinF s HAudio
  let s2 := processPhase sinF s HAudio
  if stepsDue s = 0 then
    let midpoint := fmod (s2.biasPhase + s2.substepPhase * (1 / 2)) kTwoPi
    let biasOffset := sinF midpoint
    let r := executeSubstep s2 biasOffset HAudio a.magnetisationSum
    { state := r.1
      output := r.2 / 1
      log := a.log ++ [{ biasOffset := biasOffset, MNew := r.1.MPrev }] }
  else
    { state := s2
      output := a.magnetisationSum / (stepsDue s : ℚ)
      log := a.log }

/-! ## The public interface as a transition system -/

/-- A call of a public member function. -/
inductive Op where
  | initialise (sampleRate : ℚ) (mode : Mode) (physics : PhysicsParams)
  | reset
  | setMode (mode : Mode)
  | setPhysics (physics : PhysicsParams)
  | setBiasControls (level scale : ℚ)
  | setQuality (quality : Quality)
  | process (HAudio : ℚ)

/-- The state after a public call. -/
def Op.next (sinF : ℚ → ℚ) (s : State) : Op → State
  | Op.initialise sr m p => JAHysteresisScheduler.initialise s sr m p
  | Op.reset => JAHysteresisScheduler.reset s
  | Op.setMode m => JAHysteresisScheduler.setMode s m
  | Op.setPhysics p => JAHysteresisScheduler.setPhysics s p
  | Op.setBiasControls l sc => JAHysteresisScheduler.setBiasControls s l sc
  | Op.setQuality q => JAHysteresisScheduler.setQuality s q
  | Op.process x => (JAHysteresisScheduler.process sinF s x).state

/-- The state after a sequence of public calls. -/
def runOps (sinF : ℚ → ℚ) : State → List Op → State
  | s, [] => s
  | s, op :: ops => runOps sinF (Op.next sinF s op) ops

/-- Feeding an input sequence to `process`, one call per sample: the results of the calls. -/
def processAll (sinF : ℚ → ℚ) : State → List ℚ → List ProcessResult
  | _, [] => []
  | s, x :: xs => process sinF s x :: processAll sinF (process sinF s x).state xs

/-- The output sequence of `process` for an input sequence. -/
def outputs (sinF : ℚ → ℚ) (s : State) (xs : List ℚ) : List ℚ :=
  (processAll sinF s xs).map ProcessResult.output

/-- A state an instance can be in once `initialise` has been called on it and any public calls
have followed. -/
inductive Reachable (sinF : ℚ → ℚ) : State → Prop
  | init (s0 : State) (sr : ℚ) (m : Mode) (p : PhysicsParams) :
      Reachable sinF (initialise s0 sr m p)
  | step (s : State) (op : Op) : Reachable sinF s → Reachable sinF (Op.next sinF s op)

/-! ## Definitions used to state the claims -/

/-- What holds of every state the public interface produces once `initialise` has run. -/
structure Inv (s : State) : Prop where
  cycles : s.biasCyclesPerSample = modeCycles s.currentMode
  steps : s.substepsPerCycle = qualitySteps s.qualityMode (modeSteps s.currentMode)
  stepPhase : s.substepPhase = kTwoPi / (s.substepsPerCycle : ℚ)
  cursor_nonneg : 0 ≤ s.substepCursor
  cursor_lt : s.substepCursor < 1
  phase_nonneg : 0 ≤ s.biasPhase
  phase_lt : s.biasPhase < kTwoPi
  MPrev_ge : -1 ≤ s.MPrev
  MPrev_le : s.MPrev ≤ 1
  MsSafe_eq : s.MsSafe = fmax s.physics.Ms (1 / 1000000)
  alphaNorm_eq : s.alphaNorm = s.physics.alphaCoupling
  aNorm_eq : s.aNorm = s.physics.aDensity / s.MsSafe
  invANorm_eq : s.invANorm = 1 / fmax s.aNorm (1 / 1000000000)
  kNorm_eq : s.kNorm = s.physics.kPinning / s.MsSafe
  cNorm_eq : s.cNorm = s.physics.cReversibility
  biasAmplitude_eq : s.biasAmplitude = s.biasLevel * s.biasScale

/-- The cycles-per-sample column of the table in section 4.2 of the specification. -/
def specCyclesPerSample : Mode → ℚ
  | Mode.K32 => 2
  | Mode.K48 => 3
  | Mode.K60 => 3

/-- The sub-steps-per-cycle columns of the table in section 4.2 of the specification. -/
def specSubstepsPerCycle : Mode → Quality → ℤ
  | Mode.K32, Quality.Eco => 16
  | Mode.K32, Quality.Normal => 18
  | Mode.K32, Quality.Ultra => 20
  | Mode.K48, Quality.Eco => 16
  | Mode.K48, Quality.Normal => 18
  | Mode.K48, Quality.Ultra => 19
  | Mode.K60, Quality.Eco => 20
  | Mode.K60, Quality.Normal => 22
  | Mode.K60, Quality.Ultra => 24

/-- The total number of sub-steps executed by a run of `process` calls. -/
def totalSubsteps (rs : List ProcessResult) : ℕ :=
  (rs.map (fun r => r.log.length)).sum

/-- The `MNew` of section 4.3 of the specification, written after its words, with the quantity
the effective field and the slope are divided by left open (`aN`): the specification divides by
`aNorm`. -/
def specSubstepMNew (aN : ℚ) (s : State) (drive offset : ℚ) : ℚ :=
  let HNew := drive + s.biasAmplitude * offset
  let dH := HNew - s.HPrev
  let He := HNew + s.physics.alphaCoupling * s.MPrev
  let Man := fastTanh (He / aN)
  let dMan := (1 - Man ^ 2) / aN
  let dir : ℚ := if dH ≥ 0 then 1 else -1
  let pin := dir * s.kNorm - s.physics.alphaCoupling * (Man - s.MPrev)
  let dMdH := (s.cNorm * dMan + (Man - s.MPrev) / (pin + 1 / 1000000))
    / (1 - s.cNorm * s.physics.alphaCoupling * dMan + 1 / 1000000000)
  clamp (s.MPrev + dMdH * dH) (-1) 1

/-- The derived constants as section 3 of the specification gives them for the physics `p`,
with the two bounds it draws from them. -/
def DerivedAsSpecified (p : PhysicsParams) (t : State) : Prop :=
  t.MsSafe = max p.Ms (1 / 1000000) ∧
    t.aNorm = p.aDensity / t.MsSafe ∧
    t.invANorm = 1 / max t.aNorm (1 / 1000000000) ∧
    t.kNorm = p.kPinning / t.MsSafe ∧
    t.cNorm = p.cReversibility ∧
    t.biasAmplitude = t.biasLevel * t.biasScale ∧
    1 / 1000000 ≤ t.MsSafe ∧
    0 < t.invANorm ∧
    t.invANorm ≤ 1000000000

/-- The whole sub-step counts (the local `stepsTaken` as first computed) that consecutive calls
of `process` take out of the cursor, one per input sample. -/
def stepsDueAll (sinF : ℚ → ℚ) : State → List ℚ → List ℤ
  | _, [] => []
  | s, x :: xs => stepsDue s :: stepsDueAll sinF (process sinF s x).state xs

/-- The state after an input sequence has been fed to `process`, one call per sample. -/
def stateAfter (sinF : ℚ → ℚ) : State → List ℚ → State
  | s, [] => s
  | s, x :: xs => stateAfter sinF (process sinF s x).state xs

/-- The log agrees with the loop variables: the running sum is the sum of the logged `MNew`, and
the stored magnetisation and field are those of the last logged sub-step, if there is one. -/
structure LogAgrees (x : ℚ) (a : LoopVars) : Prop where
  sum_eq : a.magnetisationSum = (a.log.map SubstepLog.MNew).sum
  last_eq : ∀ e : SubstepLog, a.log.getLast? = some e →
    a.st.MPrev = e.MNew ∧ a.st.HPrev = x + a.st.biasAmplitude * e.biasOffset

/-- The phase update that ends an iteration of the loop of `process`: one `substepPhase` on,
and `kTwoPi` off if that reaches `kTwoPi`. -/
def wrapStep (sp p : ℚ) : ℚ := if p + sp ≥ kTwoPi then p + sp - kTwoPi else p + sp

/-- The value `fastTanh` returns for an argument already clamped: the rational function of its
`return` statement. -/
def fastTanhCore (c : ℚ) : ℚ := c * (27 + c * c) / (27 + 9 * (c * c))

/-- Rounding down to nine decimals. -/
def roundDown (q : ℚ) : ℚ := ((⌊q * 1000000000⌋ : ℤ) : ℚ) / 1000000000

/-- Rounding up to nine decimals. -/
def roundUp (q : ℚ) : ℚ := ((⌈q * 1000000000⌉ : ℤ) : ℚ) / 1000000000

/-- A lower bound of `exp t` for `t ≥ 0`. -/
def expLower (t : ℚ) : ℚ := 1 + t + t ^ 2 / 2

/-- An upper bound of `exp t` for `0 ≤ t ≤ 1`. -/
def expUpper (t : ℚ) : ℚ := 1 + t + t ^ 2 / 2 + t ^ 3 * (2 / 9)

/-- The check of the tolerance 1/40 along a grid: at the point `a`, with `lo ≤ exp (2 a) ≤ hi`,
for the steps that remain.  On each cell `[a, a + h]` the largest value of `fastTanhCore` is
compared with the smallest value of `tanh` and the other way round. -/
def tanhCheck : ℚ → ℚ → ℚ → List ℚ → Bool
  | a, _, _, [] => decide (3 < a)
  | a, lo, hi, h :: hs =>
    decide (0 < h ∧ 2 * h ≤ 1 ∧
        fastTanhCore (a + h) - (lo - 1) / (lo + 1) ≤ 1 / 40 ∧
        (roundUp (hi * expUpper (2 * h)) - 1) / (roundUp (hi * expUpper (2 * h)) + 1)
          - fastTanhCore a ≤ 1 / 40)
      && tanhCheck (a + h) (roundDown (lo * expLower (2 * h)))
          (roundUp (hi * expUpper (2 * h))) hs

/-- The grid used: 242 cells from 0 to beyond 3, finest where the error is largest. -/
def tanhGrid : List ℚ :=
  List.replicate 50 (1 / 50) ++ List.replicate 130 (1 / 200) ++ List.replicate 30 (1 / 100)
    ++ List.replicate 32 (1 / 30)

/-- What holds of every state an instance can be in, initialised or not: the cursor and the
ratio are not negative. -/
def Runnable (s : State) : Prop :=
  0 ≤ s.substepCursor ∧ 0 ≤ s.biasCyclesPerSample * (s.substepsPerCycle : ℚ)

/-! ## The scheduler with the pinning regulariser as a parameter

`executeSubstep` adds `1.0e-6` to the pinning term before inverting it.  The definitions below
are the ones above with that constant replaced by a parameter `eps1`; at `eps1 = 1 / 1000000`
they are the source. -/

theorem clamp_ge (v lo hi : ℚ) (h : lo ≤ hi) : lo ≤ clamp v lo hi := by
  unfold clamp
  split_ifs with h1 h2
  · exact le_refl lo
  · exact h
  · exact not_lt.mp h1

theorem clamp_le (v lo hi : ℚ) (h : lo ≤ hi) : clamp v lo hi ≤ hi := by
  unfold clamp
  split_ifs with h1 h2
  · exact h
  · exact le_refl hi
  · exact not_lt.mp h2

theorem substepMNew_ge (s : State) (b x : ℚ) : -1 ≤ substepMNew s b x := by
  unfold substepMNew
  exact clamp_ge _ _ _ (by norm_num)

theorem substepMNew_le (s : State) (b x : ℚ) : substepMNew s b x ≤ 1 := by
  unfold substepMNew
  exact clamp_le _ _ _ (by norm_num)

theorem executeSubstep_sum (s : State) (b x m : ℚ) :
    (executeSubstep s b x m).2 = m + substepMNew s b x := rfl

theorem executeSubstep_MPrev (s : State) (b x m : ℚ) :
    (executeSubstep s b x m).1.MPrev = substepMNew s b x := rfl

theorem loopBody_sum (sinF : ℚ → ℚ) (x : ℚ) (a : LoopVars) :
    (loopBody sinF x a).magnetisationSum
      = a.magnetisationSum
        + substepMNew a.st (sinF (fmod (a.phase + a.st.substepPhase * (1 / 2)) kTwoPi)) x := rfl

theorem loopBody_log_length (sinF : ℚ → ℚ) (x : ℚ) (a : LoopVars) :
    (loopBody sinF x a).log.length = a.log.length + 1 := by
  simp [loopBody]

theorem substepLoop_log_length (sinF : ℚ → ℚ) (x : ℚ) (n : ℕ) (a : LoopVars) :
    (substepLoop sinF x n a).log.length = a.log.length + n := by
  induction n generalizing a with
  | zero => rfl
  | succ k ih =>
    rw [substepLoop, ih, loopBody_log_length]
    omega

theorem executeSubstep_frame (s : State) (b x m : ℚ) :
    (executeSubstep s b x m).1
      = { s with MPrev := (executeSubstep s b x m).1.MPrev,
                 HPrev := (executeSubstep s b x m).1.HPrev } := rfl

theorem loopBody_frame (sinF : ℚ → ℚ) (x : ℚ) (a : LoopVars) :
    (loopBody sinF x a).st
      = { a.st with MPrev := (loopBody sinF x a).st.MPrev,
                    HPrev := (loopBody sinF x a).st.HPrev } := rfl

theorem substepLoop_frame (sinF : ℚ → ℚ) (x : ℚ) (n : ℕ) (a : LoopVars) :
    (substepLoop sinF x n a).st
      = { a.st with MPrev := (substepLoop sinF x n a).st.MPrev,
                    HPrev := (substepLoop sinF x n a).st.HPrev } := by
  induction n generalizing a with
  | zero => rfl
  | succ k ih =>
    rw [substepLoop]
    have h := ih (loopBody sinF x a)
    rw [loopBody_frame] at h
    exact h

theorem processLoop_frame (sinF : ℚ → ℚ) (s : State) (x : ℚ) :
    (processLoop sinF s x).st
      = { processCursor s with MPrev := (processLoop sinF s x).st.MPrev,
                               HPrev := (processLoop sinF s x).st.HPrev } :=
  substepLoop_frame sinF x _ _

theorem process_frame (sinF : ℚ → ℚ) (s : State) (x : ℚ) :
    (process sinF s x).state
      = { s with
          substepCursor :=
            s.substepCursor + s.biasCyclesPerSample * (s.substepsPerCycle : ℚ) - (stepsDue s : ℚ)
          biasPhase := (processPhase sinF s x).biasPhase
          MPrev := (process sinF s x).state.MPrev
          HPrev := (process sinF s x).state.HPrev } := by
  have hl := processLoop_frame sinF s x
  have hp : processPhase sinF s x
      = { processCursor s with
          biasPhase := (processPhase sinF s x).biasPhase
          MPrev := (processLoop sinF s x).st.MPrev
          HPrev := (processLoop sinF s x).st.HPrev } := by
    unfold processPhase
    simp only []
    rw [hl]
  unfold process
  simp only []
  split_ifs with h0
  · rw [executeSubstep_frame, hp]
    rfl
  · rw [hp]
    rfl

theorem process_log_length (sinF : ℚ → ℚ) (s : State) (x : ℚ) :
    (process sinF s x).log.length = if stepsDue s = 0 then 1 else (stepsDue s).toNat := by
  unfold process
  simp only []
  split_ifs with h0
  · simp [processLoop, substepLoop_log_length, h0]
  · simp [processLoop, substepLoop_log_length]

/-! ## The invariant of the public interface -/

theorem kTwoPi_pos : 0 < kTwoPi := by
  unfold kTwoPi
  norm_num

theorem fmod_nonneg_lt (x y : ℚ) (hx : 0 ≤ x) (hy : 0 < y) :
    0 ≤ fmod x y ∧ fmod x y < y := by
  have hq : 0 ≤ x / y := div_nonneg hx (le_of_lt hy)
  have ht : ((truncQ (x / y) : ℤ) : ℚ) = ((⌊x / y⌋ : ℤ) : ℚ) := by
    unfold truncQ
    rw [if_pos hq]
  have hx' : x = y * (x / y) := by field_simp
  have h1 : ((⌊x / y⌋ : ℤ) : ℚ) ≤ x / y := Int.floor_le _
  have h2 : x / y < ((⌊x / y⌋ : ℤ) : ℚ) + 1 := Int.lt_floor_add_one _
  unfold fmod
  rw [ht]
  constructor
  · have := mul_le_mul_of_nonneg_left h1 (le_of_lt hy)
    linarith
  · have := mul_lt_mul_of_pos_left h2 hy
    linarith

theorem imax_table (m : Mode) (q : Quality) :
    imax (qualitySteps q (modeSteps m)) 4 = qualitySteps q (modeSteps m) := by
  cases m <;> cases q <;> rfl

theorem table_steps_range (m : Mode) (q : Quality) :
    16 ≤ qualitySteps q (modeSteps m) ∧ qualitySteps q (modeSteps m) ≤ 24 := by
  cases m <;> cases q <;> simp [qualitySteps, modeSteps]

theorem updateModeDerived_of_cursor_lt (s : State) (h : s.substepCursor < 1) :
    updateModeDerived s
      = { s with
          biasCyclesPerSample := modeCycles s.currentMode
          substepsPerCycle := imax (qualitySteps s.qualityMode (modeSteps s.currentMode)) 4
          substepPhase :=
            kTwoPi / ((imax (qualitySteps s.qualityMode (modeSteps s.currentMode)) 4 : ℤ) : ℚ) } := by
  unfold updateModeDerived
  simp only []
  rw [if_neg (not_le.mpr h)]

theorem Inv.initialise (s0 : State) (sr : ℚ) (m : Mode) (p : PhysicsParams) :
    Inv (initialise s0 sr m p) := by
  unfold JAHysteresisScheduler.initialise
  simp only []
  rw [updateModeDerived_of_cursor_lt _ (by simp [updateDerived, reset])]
  constructor <;>
    simp [updateDerived, reset, imax_table, kTwoPi_pos]

theorem Inv.reset {s : State} (h : Inv s) : Inv (reset s) := by
  obtain ⟨h1, h2, h3, h4, h5, h6, h7, h8, h9, h10, h11, h12, h13, h14, h15, h16⟩ := h
  constructor <;> simp [JAHysteresisScheduler.reset, kTwoPi_pos, *]

theorem Inv.updateModeDerived {s : State} (h : Inv s) : Inv (updateModeDerived s) := by
  rw [updateModeDerived_of_cursor_lt _ h.cursor_lt]
  obtain ⟨h1, h2, h3, h4, h5, h6, h7, h8, h9, h10, h11, h12, h13, h14, h15, h16⟩ := h
  constructor <;> simp [imax_table, *]

theorem Inv.setQuality {s : State} (h : Inv s) (q : Quality) : Inv (setQuality s q) := by
  unfold JAHysteresisScheduler.setQuality
  rw [updateModeDerived_of_cursor_lt { s with qualityMode := q } h.cursor_lt]
  obtain ⟨h1, h2, h3, h4, h5, h6, h7, h8, h9, h10, h11, h12, h13, h14, h15, h16⟩ := h
  constructor <;> simp [imax_table, *]

theorem Inv.setMode {s : State} (h : Inv s) (m : Mode) : Inv (setMode s m) := by
  unfold JAHysteresisScheduler.setMode
  split_ifs with hm
  · exact h
  · rw [updateModeDerived_of_cursor_lt { s with currentMode := m } h.cursor_lt]
    obtain ⟨h1, h2, h3, h4, h5, h6, h7, h8, h9, h10, h11, h12, h13, h14, h15, h16⟩ := h
    constructor <;> simp [imax_table, *]

theorem Inv.setPhysics {s : State} (h : Inv s) (p : PhysicsParams) : Inv (setPhysics s p) := by
  obtain ⟨h1, h2, h3, h4, h5, h6, h7, h8, h9, h10, h11, h12, h13, h14, h15, h16⟩ := h
  constructor <;> simp [JAHysteresisScheduler.setPhysics, updateDerived, *]

theorem Inv.setBiasControls {s : State} (h : Inv s) (l sc : ℚ) :
    Inv (setBiasControls s l sc) := by
  obtain ⟨h1, h2, h3, h4, h5, h6, h7, h8, h9, h10, h11, h12, h13, h14, h15, h16⟩ := h
  constructor <;> simp [JAHysteresisScheduler.setBiasControls, updateDerived, *]

theorem loopBody_phase_bounds (sinF : ℚ → ℚ) (x : ℚ) (a : LoopVars)
    (h0 : 0 ≤ a.phase) (h1 : a.phase < kTwoPi)
    (hs0 : 0 ≤ a.st.substepPhase) (hs1 : a.st.substepPhase ≤ kTwoPi) :
    0 ≤ (loopBody sinF x a).phase ∧ (loopBody sinF x a).phase < kTwoPi := by
  have he : (loopBody sinF x a).phase
      = if a.phase + a.st.substepPhase ≥ kTwoPi then a.phase + a.st.substepPhase - kTwoPi
        else a.phase + a.st.substepPhase := rfl
  rw [he]
  split_ifs with hc
  · constructor <;> linarith
  · constructor
    · linarith
    · exact not_le.mp hc

theorem substepLoop_phase_bounds (sinF : ℚ → ℚ) (x : ℚ) (n : ℕ) (a : LoopVars)
    (h0 : 0 ≤ a.phase) (h1 : a.phase < kTwoPi)
    (hs0 : 0 ≤ a.st.substepPhase) (hs1 : a.st.substepPhase ≤ kTwoPi) :
    0 ≤ (substepLoop sinF x n a).phase ∧ (substepLoop sinF x n a).phase < kTwoPi := by
  induction n generalizing a with
  | zero => exact ⟨h0, h1⟩
  | succ k ih =>
    rw [substepLoop]
    obtain ⟨b0, b1⟩ := loopBody_phase_bounds sinF x a h0 h1 hs0 hs1
    exact ih (loopBody sinF x a) b0 b1 hs0 hs1

theorem substepLoop_MPrev_bounds (sinF : ℚ → ℚ) (x : ℚ) (n : ℕ) (a : LoopVars)
    (h0 : -1 ≤ a.st.MPrev) (h1 : a.st.MPrev ≤ 1) :
    -1 ≤ (substepLoop sinF x n a).st.MPrev ∧ (substepLoop sinF x n a).st.MPrev ≤ 1 := by
  induction n generalizing a with
  | zero => exact ⟨h0, h1⟩
  | succ k ih =>
    rw [substepLoop]
    exact ih (loopBody sinF x a) (substepMNew_ge _ _ _) (substepMNew_le _ _ _)

theorem processCursor_bounds (s : State) :
    0 ≤ (processCursor s).substepCursor ∧ (processCursor s).substepCursor < 1 := by
  have h1 := Int.floor_le (s.substepCursor + s.biasCyclesPerSample * (s.substepsPerCycle : ℚ))
  have h2 := Int.lt_floor_add_one
    (s.substepCursor + s.biasCyclesPerSample * (s.substepsPerCycle : ℚ))
  unfold processCursor stepsDue
  simp only []
  constructor <;> linarith

theorem processPhase_biasPhase_bounds (sinF : ℚ → ℚ) (s : State) (x : ℚ)
    (h0 : 0 ≤ s.biasPhase) (h1 : s.biasPhase < kTwoPi)
    (hs0 : 0 ≤ s.substepPhase) (hs1 : s.substepPhase ≤ kTwoPi) :
    0 ≤ (processPhase sinF s x).biasPhase ∧ (processPhase sinF s x).biasPhase < kTwoPi := by
  obtain ⟨c0, _⟩ := processCursor_bounds s
  obtain ⟨p0, p1⟩ := substepLoop_phase_bounds sinF x (stepsDue s).toNat
    { phase := s.biasPhase, st := processCursor s, magnetisationSum := 0, log := [] }
    h0 h1 hs0 hs1
  have hc : (processLoop sinF s x).st.substepCursor = (processCursor s).substepCursor := by
    rw [processLoop_frame]
  have hp : (processLoop sinF s x).st.substepPhase = s.substepPhase := by
    rw [processLoop_frame]
    rfl
  have hnn : 0 ≤ (processLoop sinF s x).phase
      + (processLoop sinF s x).st.substepCursor * (processLoop sinF s x).st.substepPhase := by
    rw [hc, hp]
    exact add_nonneg p0 (mul_nonneg c0 hs0)
  have he : (processPhase sinF s x).biasPhase
      = if (processLoop sinF s x).phase
            + (processLoop sinF s x).st.substepCursor * (processLoop sinF s x).st.substepPhase
            ≥ kTwoPi
        then fmod ((processLoop sinF s x).phase
            + (processLoop sinF s x).st.substepCursor * (processLoop sinF s x).st.substepPhase)
            kTwoPi
        else (processLoop sinF s x).phase
            + (processLoop sinF s x).st.substepCursor * (processLoop sinF s x).st.substepPhase :=
    rfl
  rw [he]
  split_ifs with hge
  · exact fmod_nonneg_lt _ _ hnn kTwoPi_pos
  · exact ⟨hnn, not_le.mp hge⟩

theorem process_state_biasPhase (sinF : ℚ → ℚ) (s : State) (x : ℚ) :
    (process sinF s x).state.biasPhase = (processPhase sinF s x).biasPhase := by
  rw [process_frame]

theorem process_state_MPrev_bounds (sinF : ℚ → ℚ) (s : State) (x : ℚ)
    (h0 : -1 ≤ s.MPrev) (h1 : s.MPrev ≤ 1) :
    -1 ≤ (process sinF s x).state.MPrev ∧ (process sinF s x).state.MPrev ≤ 1 := by
  unfold process
  simp only []
  split_ifs with hz
  · exact ⟨substepMNew_ge _ _ _, substepMNew_le _ _ _⟩
  · exact substepLoop_MPrev_bounds sinF x _ _ h0 h1

theorem Inv.substepPhase_bounds {s : State} (h : Inv s) :
    0 ≤ s.substepPhase ∧ s.substepPhase ≤ kTwoPi := by
  have hr := table_steps_range s.currentMode s.qualityMode
  rw [← h.steps] at hr
  have hq : (16 : ℚ) ≤ (s.substepsPerCycle : ℚ) := by exact_mod_cast hr.1
  have hpos : (0 : ℚ) < (s.substepsPerCycle : ℚ) := by linarith
  rw [h.stepPhase]
  constructor
  · exact div_nonneg (le_of_lt kTwoPi_pos) (le_of_lt hpos)
  · rw [div_le_iff₀ hpos]
    have := kTwoPi_pos
    nlinarith

theorem Inv.process {s : State} (h : Inv s) (sinF : ℚ → ℚ) (x : ℚ) :
    Inv (process sinF s x).state := by
  obtain ⟨sp0, sp1⟩ := h.substepPhase_bounds
  obtain ⟨c0, c1⟩ := processCursor_bounds s
  obtain ⟨p0, p1⟩ := processPhase_biasPhase_bounds sinF s x h.phase_nonneg h.phase_lt sp0 sp1
  obtain ⟨m0, m1⟩ := process_state_MPrev_bounds sinF s x h.MPrev_ge h.MPrev_le
  have hf := process_frame sinF s x
  obtain ⟨h1, h2, h3, h4, h5, h6, h7, h8, h9, h10, h11, h12, h13, h14, h15, h16⟩ := h
  constructor
  · rw [hf]; exact h1
  · rw [hf]; exact h2
  · rw [hf]; exact h3
  · rw [hf]; exact c0
  · rw [hf]; exact c1
  · rw [hf]; exact p0
  · rw [hf]; exact p1
  · exact m0
  · exact m1
  · rw [hf]; exact h10
  · rw [hf]; exact h11
  · rw [hf]; exact h12
  · rw [hf]; exact h13
  · rw [hf]; exact h14
  · rw [hf]; exact h15
  · rw [hf]; exact h16

theorem Inv.next {s : State} (h : Inv s) (sinF : ℚ → ℚ) (op : Op) : Inv (Op.next sinF s op) := by
  cases op with
  | initialise sr m p => exact Inv.initialise s sr m p
  | reset => exact h.reset
  | setMode m => exact h.setMode m
  | setPhysics p => exact h.setPhysics p
  | setBiasControls l sc => exact h.setBiasControls l sc
  | setQuality q => exact h.setQuality q
  | process x => exact h.process sinF x

theorem Reachable.inv {sinF : ℚ → ℚ} {s : State} (h : Reachable sinF s) : Inv s := by
  induction h with
  | init s0 sr m p => exact Inv.initialise s0 sr m p
  | step s op _ ih => exact ih.next sinF op

theorem floor_add_of_unit (c : ℚ) (k : ℤ) (h0 : 0 ≤ c) (h1 : c < 1) : ⌊c + (k : ℚ)⌋ = k := by
  rw [Int.floor_add_int]
  have hfl : ⌊c⌋ = 0 := Int.floor_eq_iff.mpr ⟨by simpa using h0, by simpa using h1⟩
  rw [hfl, zero_add]

theorem floor_table (m : Mode) (q : Quality) (c : ℚ) (h0 : 0 ≤ c) (h1 : c < 1) :
    ((⌊c + modeCycles m * ((qualitySteps q (modeSteps m) : ℤ) : ℚ)⌋ : ℤ) : ℚ)
        = modeCycles m * ((qualitySteps q (modeSteps m) : ℤ) : ℚ) ∧
      32 ≤ ⌊c + modeCycles m * ((qualitySteps q (modeSteps m) : ℤ) : ℚ)⌋ ∧
      ⌊c + modeCycles m * ((qualitySteps q (modeSteps m) : ℤ) : ℚ)⌋ ≤ 72 := by
  have key : ∀ k : ℤ, modeCycles m * ((qualitySteps q (modeSteps m) : ℤ) : ℚ) = (k : ℚ) →
      ⌊c + modeCycles m * ((qualitySteps q (modeSteps m) : ℤ) : ℚ)⌋ = k := by
    intro k hk
    rw [hk]
    exact floor_add_of_unit c k h0 h1
  cases m <;> cases q <;> simp only [modeCycles, modeSteps, qualitySteps] at key ⊢
  · have := key 32 (by norm_num); rw [this]; norm_num
  · have := key 36 (by norm_num); rw [this]; norm_num
  · have := key 40 (by norm_num); rw [this]; norm_num
  · have := key 48 (by norm_num); rw [this]; norm_num
  · have := key 54 (by norm_num); rw [this]; norm_num
  · have := key 57 (by norm_num); rw [this]; norm_num
  · have := key 60 (by norm_num); rw [this]; norm_num
  · have := key 66 (by norm_num); rw [this]; norm_num
  · have := key 72 (by norm_num); rw [this]; norm_num

theorem Inv.stepsDue_eq {s : State} (h : Inv s) :
    ((stepsDue s : ℤ) : ℚ) = s.biasCyclesPerSample * (s.substepsPerCycle : ℚ) ∧
      32 ≤ stepsDue s ∧ stepsDue s ≤ 72 := by
  have := floor_table s.currentMode s.qualityMode s.substepCursor h.cursor_nonneg h.cursor_lt
  unfold stepsDue
  rw [h.cycles, h.steps]
  exact this

/-! ## A constant drive -/

theorem clamp_of_mem (v lo hi : ℚ) (h0 : lo ≤ v) (h1 : v ≤ hi) : clamp v lo hi = v := by
  unfold clamp
  rw [if_neg (not_lt.mpr h0), if_neg (not_lt.mpr h1)]

/-- A sub-step whose field equals the stored one leaves the magnetisation where it is. -/
theorem substepMNew_hold (s : State) (b x : ℚ)
    (hH : x + s.biasAmplitude * b = s.HPrev) (h0 : -1 ≤ s.MPrev) (h1 : s.MPrev ≤ 1) :
    substepMNew s b x = s.MPrev := by
  unfold substepMNew
  simp only [hH, sub_self, mul_zero, add_zero]
  exact clamp_of_mem _ _ _ h0 h1

/-- The offset enters a sub-step only through `biasAmplitude * biasOffset`. -/
theorem substepMNew_congr (s : State) (b b' x : ℚ)
    (h : s.biasAmplitude * b = s.biasAmplitude * b') :
    substepMNew s b x = substepMNew s b' x := by
  unfold substepMNew
  rw [h]

theorem loopBody_st (sinF : ℚ → ℚ) (x : ℚ) (a : LoopVars) :
    (loopBody sinF x a).st
      = { a.st with
          MPrev := substepMNew a.st
            (sinF (fmod (a.phase + a.st.substepPhase * (1 / 2)) kTwoPi)) x
          HPrev := x + a.st.biasAmplitude
            * sinF (fmod (a.phase + a.st.substepPhase * (1 / 2)) kTwoPi) } := rfl

/-- When the bias contribution `biasAmplitude * sin` is the same at every phase (bias off, or a
constant `sinF`), the loop moves the magnetisation in its first iteration only. -/
theorem substepLoop_const (sinF : ℚ → ℚ) (x : ℚ) (t0 : ℚ) (n : ℕ) (a : LoopVars)
    (hA : ∀ t : ℚ, a.st.biasAmplitude * sinF t = a.st.biasAmplitude * sinF t0) :
    (substepLoop sinF x (n + 1) a).st.MPrev = substepMNew a.st (sinF t0) x ∧
      (substepLoop sinF x (n + 1) a).st.HPrev = x + a.st.biasAmplitude * sinF t0 ∧
      (substepLoop sinF x (n + 1) a).magnetisationSum
        = a.magnetisationSum + ((n : ℚ) + 1) * substepMNew a.st (sinF t0) x := by
  induction n generalizing a with
  | zero =>
    rw [substepLoop, substepLoop, loopBody_st, loopBody_sum]
    simp only [Nat.cast_zero, zero_add, one_mul]
    rw [hA, substepMNew_congr a.st _ (sinF t0) x (hA _)]
    exact ⟨rfl, rfl, rfl⟩
  | succ k ih =>
    rw [substepLoop]
    have hA' : ∀ t : ℚ, (loopBody sinF x a).st.biasAmplitude * sinF t
        = (loopBody sinF x a).st.biasAmplitude * sinF t0 := hA
    obtain ⟨e1, e2, e3⟩ := ih (loopBody sinF x a) hA'
    have hM : (loopBody sinF x a).st.MPrev = substepMNew a.st (sinF t0) x :=
      substepMNew_congr a.st _ (sinF t0) x (hA _)
    have hH : (loopBody sinF x a).st.HPrev = x + a.st.biasAmplitude * sinF t0 := by
      rw [loopBody_st]
      exact congrArg (fun z => x + z) (hA _)
    have hold : substepMNew (loopBody sinF x a).st (sinF t0) x = substepMNew a.st (sinF t0) x := by
      rw [substepMNew_hold (loopBody sinF x a).st (sinF t0) x _ _ _, hM]
      · rw [hH]; rfl
      · rw [hM]; exact substepMNew_ge _ _ _
      · rw [hM]; exact substepMNew_le _ _ _
    rw [hold] at e1 e3
    refine ⟨e1, ?_, ?_⟩
    · rw [e2]; rfl
    · rw [e3, loopBody_sum, substepMNew_congr a.st _ (sinF t0) x (hA _)]
      push_cast
      ring

/-- With a constant bias contribution and at least one sub-step due, `process` returns the
magnetisation of its first sub-step and stores it. -/
theorem process_const (sinF : ℚ → ℚ) (s : State) (x : ℚ) (t0 : ℚ)
    (hA : ∀ t : ℚ, s.biasAmplitude * sinF t = s.biasAmplitude * sinF t0)
    (hd : 1 ≤ stepsDue s) :
    (process sinF s x).output = substepMNew s (sinF t0) x ∧
      (process sinF s x).state.MPrev = substepMNew s (sinF t0) x ∧
      (process sinF s x).state.HPrev = x + s.biasAmplitude * sinF t0 := by
  obtain ⟨n, hn⟩ : ∃ n : ℕ, (stepsDue s).toNat = n + 1 :=
    ⟨(stepsDue s).toNat - 1, by omega⟩
  have hq : ((stepsDue s : ℤ) : ℚ) = (n : ℚ) + 1 := by
    have : stepsDue s = ((n + 1 : ℕ) : ℤ) := by omega
    rw [this]
    push_cast
    ring
  have hne : stepsDue s ≠ 0 := by omega
  obtain ⟨e1, e2, e3⟩ := substepLoop_const sinF x t0 n
    { phase := s.biasPhase, st := processCursor s, magnetisationSum := 0, log := [] } hA
  have hl : processLoop sinF s x = substepLoop sinF x (n + 1)
      { phase := s.biasPhase, st := processCursor s, magnetisationSum := 0, log := [] } := by
    unfold processLoop
    rw [hn]
  have hpos : (0 : ℚ) < (n : ℚ) + 1 := by positivity
  unfold process
  simp only []
  rw [if_neg hne]
  simp only []
  refine ⟨?_, ?_, ?_⟩
  · rw [hl, e3, hq, zero_add]
    have : substepMNew (processCursor s) (sinF t0) x = substepMNew s (sinF t0) x := rfl
    rw [this]
    field_simp
  · have : (processPhase sinF s x).MPrev = (processLoop sinF s x).st.MPrev := rfl
    rw [this, hl, e1]
    rfl
  · have : (processPhase sinF s x).HPrev = (processLoop sinF s x).st.HPrev := rfl
    rw [this, hl, e2]
    rfl

/-! ## The sample rate is not read by `process` -/

theorem substepLoop_sampleRate (sinF : ℚ → ℚ) (x r : ℚ) (n : ℕ) (a : LoopVars) :
    substepLoop sinF x n { a with st := { a.st with sampleRate := r } }
      = { substepLoop sinF x n a with
          st := { (substepLoop sinF x n a).st with sampleRate := r } } := by
  induction n generalizing a with
  | zero => rfl
  | succ k ih =>
    rw [substepLoop, substepLoop]
    exact ih (loopBody sinF x a)

theorem process_sampleRate (sinF : ℚ → ℚ) (s : State) (x r : ℚ) :
    (process sinF { s with sampleRate := r } x).output = (process sinF s x).output ∧
      (process sinF { s with sampleRate := r } x).state
        = { (process sinF s x).state with sampleRate := r } := by
  have hl : processLoop sinF { s with sampleRate := r } x
      = { processLoop sinF s x with
          st := { (processLoop sinF s x).st with sampleRate := r } } :=
    substepLoop_sampleRate sinF x r (stepsDue s).toNat
      { phase := s.biasPhase, st := processCursor s, magnetisationSum := 0, log := [] }
  have hp : processPhase sinF { s with sampleRate := r } x
      = { processPhase sinF s x with sampleRate := r } := by
    unfold processPhase
    rw [hl]
  have hd : stepsDue { s with sampleRate := r } = stepsDue s := rfl
  unfold process
  rw [hl, hp, hd]
  simp only []
  split_ifs with h0
  · exact ⟨rfl, rfl⟩
  · exact ⟨rfl, rfl⟩

theorem outputs_sampleRate (sinF : ℚ → ℚ) (s : State) (r : ℚ) (xs : List ℚ) :
    outputs sinF { s with sampleRate := r } xs = outputs sinF s xs := by
  induction xs generalizing s with
  | nil => rfl
  | cons x xs ih =>
    obtain ⟨e1, e2⟩ := process_sampleRate sinF s x r
    unfold outputs at ih ⊢
    rw [processAll, processAll, List.map_cons, List.map_cons, e1, e2, ih]

/-- Two states that satisfy the invariant and agree on the configuration and on the running state
differ in the sample rate at most. -/
theorem Inv.eq_of_config {u v : State} (hu : Inv u) (hv : Inv v)
    (hm : u.currentMode = v.currentMode) (hq : u.qualityMode = v.qualityMode)
    (hp : u.physics = v.physics) (hl : u.biasLevel = v.biasLevel)
    (hs : u.biasScale = v.biasScale) (h1 : u.biasPhase = v.biasPhase)
    (h2 : u.substepCursor = v.substepCursor) (h3 : u.MPrev = v.MPrev)
    (h4 : u.HPrev = v.HPrev) :
    u = { v with sampleRate := u.sampleRate } := by
  have a1 := hu.cycles
  have a2 := hu.steps
  have a3 := hu.stepPhase
  have a4 := hu.MsSafe_eq
  have a5 := hu.alphaNorm_eq
  have a6 := hu.aNorm_eq
  have a7 := hu.invANorm_eq
  have a8 := hu.kNorm_eq
  have a9 := hu.cNorm_eq
  have a10 := hu.biasAmplitude_eq
  have b1 := hv.cycles
  have b2 := hv.steps
  have b3 := hv.stepPhase
  have b4 := hv.MsSafe_eq
  have b5 := hv.alphaNorm_eq
  have b6 := hv.aNorm_eq
  have b7 := hv.invANorm_eq
  have b8 := hv.kNorm_eq
  have b9 := hv.cNorm_eq
  have b10 := hv.biasAmplitude_eq
  cases u
  cases v
  simp only [State.mk.injEq] at *
  subst hm hq hp hl hs h1 h2 h3 h4
  subst a1 a2 a4 a5 a9 a10 b1 b2 b4 b5 b9 b10
  subst a3 a6 b3 b6
  subst a7 a8 b7 b8
  simp

theorem processAll_reachable {sinF : ℚ → ℚ} {s : State} (h : Reachable sinF s) (x : ℚ) :
    Reachable sinF (process sinF s x).state :=
  Reachable.step s (Op.process x) h

theorem process_state_currentMode (sinF : ℚ → ℚ) (s : State) (x : ℚ) :
    (process sinF s x).state.currentMode = s.currentMode := by
  rw [process_frame]

theorem process_state_qualityMode (sinF : ℚ → ℚ) (s : State) (x : ℚ) :
    (process sinF s x).state.qualityMode = s.qualityMode := by
  rw [process_frame]

theorem process_state_substepCursor (sinF : ℚ → ℚ) (s : State) (x : ℚ) :
    (process sinF s x).state.substepCursor
      = s.substepCursor + s.biasCyclesPerSample * (s.substepsPerCycle : ℚ) - (stepsDue s : ℚ) := by
  rw [process_frame]

theorem process_log_length_of_inv {s : State} (h : Inv s) (sinF : ℚ → ℚ) (x : ℚ) :
    (((process sinF s x).log.length : ℕ) : ℚ)
        = modeCycles s.currentMode * ((qualitySteps s.qualityMode (modeSteps s.currentMode) : ℤ) : ℚ) ∧
      (process sinF s x).log.length ≤ 75 := by
  obtain ⟨e, lo, hi⟩ := h.stepsDue_eq
  have hne : stepsDue s ≠ 0 := by omega
  rw [process_log_length, if_neg hne]
  have hc : (((stepsDue s).toNat : ℕ) : ℤ) = stepsDue s := Int.toNat_of_nonneg (by omega)
  constructor
  · rw [← h.cycles, ← h.steps, ← e]
    exact_mod_cast hc
  · omega

/-- C2 (catch-up guarantee). With a non-negative cursor and a non-negative ratio
`R = biasCyclesPerSample * substepsPerCycle` (below 1 or not), a call of `process` runs
`executeSubstep` at least once; when the integer part of `substepCursor + R` is zero it runs it
exactly once and `substepCursor` afterwards holds the whole of `substepCursor + R`. -/
theorem process_catch_up (sinF : ℚ → ℚ) (s : State) (x : ℚ)
    (hc : 0 ≤ s.substepCursor)
    (hR : 0 ≤ s.biasCyclesPerSample * (s.substepsPerCycle : ℚ)) :
    1 ≤ (process sinF s x).log.length ∧
      (⌊s.substepCursor + s.biasCyclesPerSample * (s.substepsPerCycle : ℚ)⌋ = 0 →
        (process sinF s x).log.length = 1 ∧
          (process sinF s x).state.substepCursor
            = s.substepCursor + s.biasCyclesPerSample * (s.substepsPerCycle : ℚ)) := by
  have hnn : 0 ≤ stepsDue s := Int.floor_nonneg.mpr (add_nonneg hc hR)
  constructor
  · rw [process_log_length]
    split_ifs with h0
    · exact le_refl 1
    · omega
  · intro hz
    have h0 : stepsDue s = 0 := hz
    constructor
    · rw [process_log_length, if_pos h0]
    · rw [process_state_substepCursor, h0]
      simp

/-- Witness for C2: a state whose ratio is 1/4, so that no whole sub-step is due. -/
theorem process_catch_up_witness :
    1 ≤ (process (fun _ => 0)
          { fresh with biasCyclesPerSample := 1 / 4, substepsPerCycle := 1 } 1).log.length ∧
      (⌊(0 : ℚ) + 1 / 4 * ((1 : ℤ) : ℚ)⌋ = 0 →
        (process (fun _ => 0)
            { fresh with biasCyclesPerSample := 1 / 4, substepsPerCycle := 1 } 1).log.length = 1 ∧
          (process (fun _ => 0)
            { fresh with biasCyclesPerSample := 1 / 4, substepsPerCycle := 1 } 1).state.substepCursor
            = 0 + 1 / 4 * ((1 : ℤ) : ℚ)) :=
  process_catch_up (fun _ => 0) { fresh with biasCyclesPerSample := 1 / 4, substepsPerCycle := 1 } 1
    (by simp [fresh]) (by simp [fresh])

theorem updateModeDerived_currentMode (s : State) :
    (updateModeDerived s).currentMode = s.currentMode := by
  unfold updateModeDerived
  simp only []
  split_ifs <;> rfl

theorem updateModeDerived_qualityMode (s : State) :
    (updateModeDerived s).qualityMode = s.qualityMode := by
  unfold updateModeDerived
  simp only []
  split_ifs <;> rfl

theorem setMode_currentMode (s : State) (m : Mode) : (setMode s m).currentMode = m := by
  unfold setMode
  split_ifs with e
  · exact e
  · rw [updateModeDerived_currentMode]

theorem setQuality_currentMode (s : State) (q : Quality) :
    (setQuality s q).currentMode = s.currentMode := by
  unfold setQuality
  rw [updateModeDerived_currentMode]

theorem setQuality_qualityMode (s : State) (q : Quality) :
    (setQuality s q).qualityMode = q := by
  unfold setQuality
  rw [updateModeDerived_qualityMode]

theorem totalSubsteps_processAll {sinF : ℚ → ℚ} {s : State} (h : Reachable sinF s)
    (xs : List ℚ) :
    ((totalSubsteps (processAll sinF s xs) : ℕ) : ℚ)
      = (xs.length : ℚ)
        * (modeCycles s.currentMode
            * ((qualitySteps s.qualityMode (modeSteps s.currentMode) : ℤ) : ℚ)) := by
  induction xs generalizing s with
  | nil => simp [processAll, totalSubsteps]
  | cons x xs ih =>
    have h1 := (process_log_length_of_inv h.inv sinF x).1
    have h2 := ih (processAll_reachable h x)
    rw [process_state_currentMode, process_state_qualityMode] at h2
    unfold totalSubsteps at h2 ⊢
    rw [processAll, List.map_cons, List.sum_cons, List.length_cons, Nat.cast_add, h1, h2]
    push_cast
    ring

/-- C3 (rate and iteration bound). In every state reached from `initialise` by public calls, a
call of `process` runs `executeSubstep` exactly cyclesPerSample * substepsPerCycle times for the
active mode and quality, and never more than 75 times; hence `N` consecutive calls run it
`N * cyclesPerSample * substepsPerCycle` times in total. -/
theorem process_rate_exact (sinF : ℚ → ℚ) (s : State) (h : Reachable sinF s) :
    (∀ x : ℚ,
      (((process sinF s x).log.length : ℕ) : ℚ)
          = specCyclesPerSample s.currentMode
            * ((specSubstepsPerCycle s.currentMode s.qualityMode : ℤ) : ℚ) ∧
        (((process sinF s x).log.length : ℕ) : ℚ)
          = s.biasCyclesPerSample * (s.substepsPerCycle : ℚ) ∧
        (process sinF s x).log.length ≤ 75) ∧
      (∀ xs : List ℚ,
        ((totalSubsteps (processAll sinF s xs) : ℕ) : ℚ)
          = (xs.length : ℚ)
            * (specCyclesPerSample s.currentMode
                * ((specSubstepsPerCycle s.currentMode s.qualityMode : ℤ) : ℚ))) := by
  have hc : specCyclesPerSample s.currentMode = modeCycles s.currentMode := by
    cases s.currentMode <;> rfl
  have hs : specSubstepsPerCycle s.currentMode s.qualityMode
      = qualitySteps s.qualityMode (modeSteps s.currentMode) := by
    cases s.currentMode <;> cases s.qualityMode <;> rfl
  rw [hc, hs]
  constructor
  · intro x
    obtain ⟨e, b⟩ := process_log_length_of_inv h.inv sinF x
    refine ⟨e, ?_, b⟩
    rw [e, h.inv.cycles, h.inv.steps]
  · intro xs
    exact totalSubsteps_processAll h xs

/-- Witness for C3: the instance initialised at 48 kHz in mode K48 with the default physics. -/
theorem process_rate_exact_witness :
    (∀ x : ℚ,
      (((process (fun _ => 0) (initialise fresh 48000 Mode.K48 {}) x).log.length : ℕ) : ℚ)
          = specCyclesPerSample (initialise fresh 48000 Mode.K48 {}).currentMode
            * ((specSubstepsPerCycle (initialise fresh 48000 Mode.K48 {}).currentMode
                (initialise fresh 48000 Mode.K48 {}).qualityMode : ℤ) : ℚ) ∧
        (((process (fun _ => 0) (initialise fresh 48000 Mode.K48 {}) x).log.length : ℕ) : ℚ)
          = (initialise fresh 48000 Mode.K48 {}).biasCyclesPerSample
            * ((initialise fresh 48000 Mode.K48 {}).substepsPerCycle : ℚ) ∧
        (process (fun _ => 0) (initialise fresh 48000 Mode.K48 {}) x).log.length ≤ 75) ∧
      (∀ xs : List ℚ,
        ((totalSubsteps (processAll (fun _ => 0) (initialise fresh 48000 Mode.K48 {}) xs) : ℕ) : ℚ)
          = (xs.length : ℚ)
            * (specCyclesPerSample (initialise fresh 48000 Mode.K48 {}).currentMode
                * ((specSubstepsPerCycle (initialise fresh 48000 Mode.K48 {}).currentMode
                    (initialise fresh 48000 Mode.K48 {}).qualityMode : ℤ) : ℚ))) :=
  process_rate_exact (fun _ => 0) (initialise fresh 48000 Mode.K48 {})
    (Reachable.init fresh 48000 Mode.K48 {})

/-- C4 (phase wrap). In every state reached from `initialise` by public calls, `biasPhase` lies
in `[0, kTwoPi)` after a call of `process`, whatever the input. -/
theorem process_phase_wrapped (sinF : ℚ → ℚ) (s : State) (h : Reachable sinF s) (x : ℚ) :
    0 ≤ (process sinF s x).state.biasPhase ∧ (process sinF s x).state.biasPhase < kTwoPi := by
  have hi := h.inv.process sinF x
  exact ⟨hi.phase_nonneg, hi.phase_lt⟩

/-- Witness for C4: the instance initialised at 48 kHz in mode K48 with the default physics,
fed the sample 1. -/
theorem process_phase_wrapped_witness :
    0 ≤ (process (fun _ => 0) (initialise fresh 48000 Mode.K48 {}) 1).state.biasPhase ∧
      (process (fun _ => 0) (initialise fresh 48000 Mode.K48 {}) 1).state.biasPhase < kTwoPi :=
  process_phase_wrapped (fun _ => 0) (initialise fresh 48000 Mode.K48 {})
    (Reachable.init fresh 48000 Mode.K48 {}) 1

/-- C5 (table exactness). In every state reached from `initialise` by public calls,
`biasCyclesPerSample` and `substepsPerCycle` are the entries of the table of section 4.2 for the
active mode and quality, and `substepsPerCycle` is at least 4; and `setMode m` followed by
`setQuality q` makes any pair `(m, q)` the active one, with its table entries. -/
theorem table_exact (sinF : ℚ → ℚ) (s : State) (h : Reachable sinF s) (m : Mode) (q : Quality) :
    (s.biasCyclesPerSample = specCyclesPerSample s.currentMode ∧
      s.substepsPerCycle = specSubstepsPerCycle s.currentMode s.qualityMode ∧
      4 ≤ s.substepsPerCycle) ∧
    ((setQuality (setMode s m) q).currentMode = m ∧
      (setQuality (setMode s m) q).qualityMode = q ∧
      (setQuality (setMode s m) q).biasCyclesPerSample = specCyclesPerSample m ∧
      (setQuality (setMode s m) q).substepsPerCycle = specSubstepsPerCycle m q ∧
      4 ≤ (setQuality (setMode s m) q).substepsPerCycle) := by
  have key : ∀ t : State, Inv t →
      t.biasCyclesPerSample = specCyclesPerSample t.currentMode ∧
        t.substepsPerCycle = specSubstepsPerCycle t.currentMode t.qualityMode ∧
        4 ≤ t.substepsPerCycle := by
    intro t ht
    have hr := table_steps_range t.currentMode t.qualityMode
    rw [ht.cycles, ht.steps]
    refine ⟨?_, ?_, by omega⟩
    · cases t.currentMode <;> rfl
    · cases t.currentMode <;> cases t.qualityMode <;> rfl
  have hi : Inv (setQuality (setMode s m) q) := (h.inv.setMode m).setQuality q
  have hm : (setQuality (setMode s m) q).currentMode = m := by
    rw [setQuality_currentMode, setMode_currentMode]
  have hq : (setQuality (setMode s m) q).qualityMode = q := setQuality_qualityMode _ q
  refine ⟨key s h.inv, hm, hq, ?_⟩
  have := key _ hi
  rw [hm, hq] at this
  exact this

/-- Witness for C5: the instance initialised at 48 kHz in mode K48, switched to K60 and Ultra. -/
theorem table_exact_witness :
    ((initialise fresh 48000 Mode.K48 {}).biasCyclesPerSample
        = specCyclesPerSample (initialise fresh 48000 Mode.K48 {}).currentMode ∧
      (initialise fresh 48000 Mode.K48 {}).substepsPerCycle
        = specSubstepsPerCycle (initialise fresh 48000 Mode.K48 {}).currentMode
            (initialise fresh 48000 Mode.K48 {}).qualityMode ∧
      4 ≤ (initialise fresh 48000 Mode.K48 {}).substepsPerCycle) ∧
    ((setQuality (setMode (initialise fresh 48000 Mode.K48 {}) Mode.K60) Quality.Ultra).currentMode
        = Mode.K60 ∧
      (setQuality (setMode (initialise fresh 48000 Mode.K48 {}) Mode.K60) Quality.Ultra).qualityMode
        = Quality.Ultra ∧
      (setQuality (setMode (initialise fresh 48000 Mode.K48 {}) Mode.K60)
          Quality.Ultra).biasCyclesPerSample = specCyclesPerSample Mode.K60 ∧
      (setQuality (setMode (initialise fresh 48000 Mode.K48 {}) Mode.K60)
          Quality.Ultra).substepsPerCycle = specSubstepsPerCycle Mode.K60 Quality.Ultra ∧
      4 ≤ (setQuality (setMode (initialise fresh 48000 Mode.K48 {}) Mode.K60)
          Quality.Ultra).substepsPerCycle) :=
  table_exact (fun _ => 0) (initialise fresh 48000 Mode.K48 {})
    (Reachable.init fresh 48000 Mode.K48 {}) Mode.K60 Quality.Ultra

/-- C9 (configuration changes preserve the running state). In a state whose `substepCursor` is in
`[0, 1)`, each of `setMode`, `setPhysics`, `setBiasControls` and `setQuality`, with any argument,
leaves `biasPhase`, `substepCursor`, `MPrev` and `HPrev` as they were. -/
theorem setters_preserve_running_state (s : State)
    (hc : 0 ≤ s.substepCursor ∧ s.substepCursor < 1)
    (m : Mode) (p : PhysicsParams) (level scale : ℚ) (q : Quality) :
    ((setMode s m).biasPhase = s.biasPhase ∧ (setMode s m).substepCursor = s.substepCursor ∧
        (setMode s m).MPrev = s.MPrev ∧ (setMode s m).HPrev = s.HPrev) ∧
      ((setPhysics s p).biasPhase = s.biasPhase ∧
        (setPhysics s p).substepCursor = s.substepCursor ∧
        (setPhysics s p).MPrev = s.MPrev ∧ (setPhysics s p).HPrev = s.HPrev) ∧
      ((setBiasControls s level scale).biasPhase = s.biasPhase ∧
        (setBiasControls s level scale).substepCursor = s.substepCursor ∧
        (setBiasControls s level scale).MPrev = s.MPrev ∧
        (setBiasControls s level scale).HPrev = s.HPrev) ∧
      ((setQuality s q).biasPhase = s.biasPhase ∧
        (setQuality s q).substepCursor = s.substepCursor ∧
        (setQuality s q).MPrev = s.MPrev ∧ (setQuality s q).HPrev = s.HPrev) := by
  refine ⟨?_, ⟨rfl, rfl, rfl, rfl⟩, ⟨rfl, rfl, rfl, rfl⟩, ?_⟩
  · unfold setMode
    split_ifs with e
    · exact ⟨rfl, rfl, rfl, rfl⟩
    · rw [updateModeDerived_of_cursor_lt { s with currentMode := m } hc.2]
      exact ⟨rfl, rfl, rfl, rfl⟩
  · unfold setQuality
    rw [updateModeDerived_of_cursor_lt { s with qualityMode := q } hc.2]
    exact ⟨rfl, rfl, rfl, rfl⟩

/-- Witness for C9: a state in mid-run (cursor 1/2, non-zero phase, magnetisation and field). -/
theorem setters_preserve_running_state_witness :
    (((setMode { fresh with substepCursor := 1 / 2, biasPhase := 1, MPrev := 1 / 3, HPrev := 2 }
          Mode.K60).biasPhase = 1 ∧
        (setMode { fresh with substepCursor := 1 / 2, biasPhase := 1, MPrev := 1 / 3, HPrev := 2 }
          Mode.K60).substepCursor = 1 / 2 ∧
        (setMode { fresh with substepCursor := 1 / 2, biasPhase := 1, MPrev := 1 / 3, HPrev := 2 }
          Mode.K60).MPrev = 1 / 3 ∧
        (setMode { fresh with substepCursor := 1 / 2, biasPhase := 1, MPrev := 1 / 3, HPrev := 2 }
          Mode.K60).HPrev = 2) ∧
      ((setPhysics { fresh with substepCursor := 1 / 2, biasPhase := 1, MPrev := 1 / 3, HPrev := 2 }
          { Ms := 1 }).biasPhase = 1 ∧
        (setPhysics { fresh with substepCursor := 1 / 2, biasPhase := 1, MPrev := 1 / 3, HPrev := 2 }
          { Ms := 1 }).substepCursor = 1 / 2 ∧
        (setPhysics { fresh with substepCursor := 1 / 2, biasPhase := 1, MPrev := 1 / 3, HPrev := 2 }
          { Ms := 1 }).MPrev = 1 / 3 ∧
        (setPhysics { fresh with substepCursor := 1 / 2, biasPhase := 1, MPrev := 1 / 3, HPrev := 2 }
          { Ms := 1 }).HPrev = 2) ∧
      ((setBiasControls
          { fresh with substepCursor := 1 / 2, biasPhase := 1, MPrev := 1 / 3, HPrev := 2 }
          1 5).biasPhase = 1 ∧
        (setBiasControls
          { fresh with substepCursor := 1 / 2, biasPhase := 1, MPrev := 1 / 3, HPrev := 2 }
          1 5).substepCursor = 1 / 2 ∧
        (setBiasControls
          { fresh with substepCursor := 1 / 2, biasPhase := 1, MPrev := 1 / 3, HPrev := 2 }
          1 5).MPrev = 1 / 3 ∧
        (setBiasControls
          { fresh with substepCursor := 1 / 2, biasPhase := 1, MPrev := 1 / 3, HPrev := 2 }
          1 5).HPrev = 2) ∧
      ((setQuality { fresh with substepCursor := 1 / 2, biasPhase := 1, MPrev := 1 / 3, HPrev := 2 }
          Quality.Eco).biasPhase = 1 ∧
        (setQuality { fresh with substepCursor := 1 / 2, biasPhase := 1, MPrev := 1 / 3, HPrev := 2 }
          Quality.Eco).substepCursor = 1 / 2 ∧
        (setQuality { fresh with substepCursor := 1 / 2, biasPhase := 1, MPrev := 1 / 3, HPrev := 2 }
          Quality.Eco).MPrev = 1 / 3 ∧
        (setQuality { fresh with substepCursor := 1 / 2, biasPhase := 1, MPrev := 1 / 3, HPrev := 2 }
          Quality.Eco).HPrev = 2)) :=
  setters_preserve_running_state
    { fresh with substepCursor := 1 / 2, biasPhase := 1, MPrev := 1 / 3, HPrev := 2 }
    ⟨by norm_num, by norm_num⟩ Mode.K60 { Ms := 1 } 1 5 Quality.Eco

/-- C10 (`reset` clears the oscillator and JA state only). After `reset` the members `biasPhase`,
`substepCursor`, `MPrev` and `HPrev` are 0 and every other member is what it was. -/
theorem reset_clears_running_state_only (s : State) :
    ((reset s).biasPhase = 0 ∧ (reset s).substepCursor = 0 ∧
        (reset s).MPrev = 0 ∧ (reset s).HPrev = 0) ∧
      (reset s).sampleRate = s.sampleRate ∧
      (reset s).currentMode = s.currentMode ∧
      (reset s).qualityMode = s.qualityMode ∧
      (reset s).physics = s.physics ∧
      (reset s).biasLevel = s.biasLevel ∧
      (reset s).biasScale = s.biasScale ∧
      (reset s).MsSafe = s.MsSafe ∧
      (reset s).alphaNorm = s.alphaNorm ∧
      (reset s).aNorm = s.aNorm ∧
      (reset s).invANorm = s.invANorm ∧
      (reset s).kNorm = s.kNorm ∧
      (reset s).cNorm = s.cNorm ∧
      (reset s).biasAmplitude = s.biasAmplitude ∧
      (reset s).biasCyclesPerSample = s.biasCyclesPerSample ∧
      (reset s).substepsPerCycle = s.substepsPerCycle ∧
      (reset s).substepPhase = s.substepPhase :=
  ⟨⟨rfl, rfl, rfl, rfl⟩, rfl, rfl, rfl, rfl, rfl, rfl, rfl, rfl, rfl, rfl, rfl, rfl, rfl, rfl,
    rfl, rfl⟩

theorem initialise_eq (s0 : State) (sr : ℚ) (m : Mode) (p : PhysicsParams) :
    initialise s0 sr m p
      = { updateDerived (reset
            { s0 with
              sampleRate := fmax 1 sr
              currentMode := m
              physics := p
              biasLevel := clamp s0.biasLevel 0 1 }) with
          biasCyclesPerSample := modeCycles m
          substepsPerCycle := imax (qualitySteps s0.qualityMode (modeSteps m)) 4
          substepPhase :=
            kTwoPi / ((imax (qualitySteps s0.qualityMode (modeSteps m)) 4 : ℤ) : ℚ) } := by
  unfold initialise
  simp only []
  rw [updateModeDerived_of_cursor_lt _ (by simp [updateDerived, reset])]
  rfl

theorem runOps_reachable {sinF : ℚ → ℚ} {s : State} (h : Reachable sinF s) (ops : List Op) :
    Reachable sinF (runOps sinF s ops) := by
  induction ops generalizing s with
  | nil => exact h
  | cons op ops ih => exact ih (Reachable.step s op h)

theorem process_state_config (sinF : ℚ → ℚ) (s : State) (x : ℚ) :
    (process sinF s x).state.physics = s.physics ∧
      (process sinF s x).state.biasLevel = s.biasLevel ∧
      (process sinF s x).state.biasScale = s.biasScale := by
  rw [process_frame]
  exact ⟨rfl, rfl, rfl⟩

theorem outputs_singleton (sinF : ℚ → ℚ) (s : State) (x : ℚ) :
    outputs sinF s [x] = [(process sinF s x).output] := rfl

/-- C6, as stated, fails: after `setBiasControls 0 0` a `reset` does not bring back the bias a
fresh instance has; with the sine replaced by the constant 1 and the one-sample input `[1]` the
reset instance returns about 0.55 and the fresh one returns 1. -/
theorem replay_after_reset_differs :
    outputs (fun _ => 1)
        (reset (runOps (fun _ => 1) (initialise fresh 48000 Mode.K48 {})
          [Op.setBiasControls 0 0])) [1]
      ≠ outputs (fun _ => 1) (initialise fresh 48000 Mode.K48 {}) [1] := by
  have r0 : Reachable (fun _ => 1) (initialise fresh 48000 Mode.K48 {}) :=
    Reachable.init fresh 48000 Mode.K48 {}
  have i1 : Inv (reset (setBiasControls (initialise fresh 48000 Mode.K48 {}) 0 0)) :=
    (r0.inv.setBiasControls 0 0).reset
  have d1 := i1.stepsDue_eq.2.1
  have d2 := r0.inv.stepsDue_eq.2.1
  have e1 := (process_const (fun _ => 1)
    (reset (setBiasControls (initialise fresh 48000 Mode.K48 {}) 0 0)) 1 0
    (fun _ => rfl) (by omega)).1
  have e2 := (process_const (fun _ => 1) (initialise fresh 48000 Mode.K48 {}) 1 0
    (fun _ => rfl) (by omega)).1
  have v1 : substepMNew (reset (setBiasControls (initialise fresh 48000 Mode.K48 {}) 0 0)) 1 1
      = 1468928414771557145680000000 / 2670998879874200740726472913 := by
    norm_num [substepMNew, reset, setBiasControls, initialise, updateDerived, updateModeDerived,
      fresh, fmax, clamp, fastTanh, imax, qualitySteps, modeSteps, modeCycles, fmod]
  have v2 : substepMNew (initialise fresh 48000 Mode.K48 {}) 1 1 = 1 := by
    norm_num [substepMNew, reset, setBiasControls, initialise, updateDerived, updateModeDerived,
      fresh, fmax, clamp, fastTanh, imax, qualitySteps, modeSteps, modeCycles, fmod]
  have hrun : runOps (fun _ => 1) (initialise fresh 48000 Mode.K48 {}) [Op.setBiasControls 0 0]
      = setBiasControls (initialise fresh 48000 Mode.K48 {}) 0 0 := rfl
  rw [hrun, outputs_singleton, outputs_singleton, e1, e2, v1, v2]
  norm_num

/-- C6, amended (deterministic replay). Take an instance made from a fresh one by
`initialise sr m p` and any public calls after it. If its mode, quality, physics and bias controls
are then those a fresh instance has after `initialise sr m p` (`m`, Normal, `p`, 0.4 and 11),
`reset` followed by an input sequence gives the output sequence of the fresh instance initialised
with `sr`, `m`, `p` and fed the same sequence. -/
theorem replay_after_reset (sinF : ℚ → ℚ) (sr : ℚ) (m : Mode) (p : PhysicsParams)
    (ops : List Op) (xs : List ℚ)
    (hm : (runOps sinF (initialise fresh sr m p) ops).currentMode = m)
    (hq : (runOps sinF (initialise fresh sr m p) ops).qualityMode = Quality.Normal)
    (hp : (runOps sinF (initialise fresh sr m p) ops).physics = p)
    (hl : (runOps sinF (initialise fresh sr m p) ops).biasLevel = 4 / 10)
    (hs : (runOps sinF (initialise fresh sr m p) ops).biasScale = 11) :
    outputs sinF (reset (runOps sinF (initialise fresh sr m p) ops)) xs
      = outputs sinF (initialise fresh sr m p) xs := by
  have r0 : Reachable sinF (initialise fresh sr m p) := Reachable.init fresh sr m p
  have iu : Inv (reset (runOps sinF (initialise fresh sr m p) ops)) :=
    (runOps_reachable r0 ops).inv.reset
  have hc : clamp fresh.biasLevel 0 1 = 4 / 10 := by norm_num [clamp, fresh]
  have e := Inv.eq_of_config iu r0.inv
    (by rw [initialise_eq]; exact hm)
    (by rw [initialise_eq]; exact hq)
    (by rw [initialise_eq]; exact hp)
    (by rw [initialise_eq]; exact hl.trans hc.symm)
    (by rw [initialise_eq]; exact hs)
    (by rw [initialise_eq]; rfl)
    (by rw [initialise_eq]; rfl)
    (by rw [initialise_eq]; rfl)
    (by rw [initialise_eq]; rfl)
  calc outputs sinF (reset (runOps sinF (initialise fresh sr m p) ops)) xs
      = outputs sinF { initialise fresh sr m p with
          sampleRate := (reset (runOps sinF (initialise fresh sr m p) ops)).sampleRate } xs :=
        congrArg (fun z => outputs sinF z xs) e
    _ = outputs sinF (initialise fresh sr m p) xs := outputs_sampleRate sinF _ _ xs

/-- Witness for the amended C6: an instance that processed a sample, had its bias switched off
and then set back to the defaults. -/
theorem replay_after_reset_witness :
    outputs (fun _ => 1)
        (reset (runOps (fun _ => 1) (initialise fresh 48000 Mode.K48 {})
          [Op.process 1, Op.setBiasControls 0 0, Op.setBiasControls (4 / 10) 11])) [1, -1]
      = outputs (fun _ => 1) (initialise fresh 48000 Mode.K48 {}) [1, -1] :=
  replay_after_reset (fun _ => 1) 48000 Mode.K48 {}
    [Op.process 1, Op.setBiasControls 0 0, Op.setBiasControls (4 / 10) 11] [1, -1]
    (by
      show (process (fun _ => 1) (initialise fresh 48000 Mode.K48 {}) 1).state.currentMode = _
      rw [process_state_currentMode, initialise_eq]
      rfl)
    (by
      show (process (fun _ => 1) (initialise fresh 48000 Mode.K48 {}) 1).state.qualityMode = _
      rw [process_state_qualityMode, initialise_eq]
      rfl)
    (by
      show (process (fun _ => 1) (initialise fresh 48000 Mode.K48 {}) 1).state.physics = _
      rw [(process_state_config _ _ _).1, initialise_eq]
      rfl)
    (by
      show clamp (4 / 10) 0 1 = 4 / 10
      norm_num [clamp])
    (by
      show fmax 11 0 = 11
      norm_num [fmax])

theorem substepMNew_eq_spec (s : State) (b x : ℚ)
    (ha : s.alphaNorm = s.physics.alphaCoupling)
    (hi : s.invANorm = 1 / fmax s.aNorm (1 / 1000000000)) :
    substepMNew s b x = specSubstepMNew (fmax s.aNorm (1 / 1000000000)) s x b := by
  unfold substepMNew specSubstepMNew
  simp only [ha, hi, one_div, div_eq_mul_inv, pow_two, one_mul]

/-- C7, as stated, fails where `aNorm` is below the guard `1e-9`: with the density coefficient
`a = -720` (so `aNorm = -2.25` and `invANorm = 1e9`), from rest, drive 1 and offset 0, the
code commits `MPrev = 1` while the stated formula, which divides by `aNorm`, is negative. -/
theorem executeSubstep_differs_from_stated :
    (executeSubstep (initialise fresh 48000 Mode.K32 { aDensity := -720 }) 0 1 0).1.MPrev = 1 ∧
      specSubstepMNew (initialise fresh 48000 Mode.K32 { aDensity := -720 }).aNorm
        (initialise fresh 48000 Mode.K32 { aDensity := -720 }) 1 0 < 0 := by
  constructor
  · rw [executeSubstep_MPrev]
    norm_num [substepMNew, reset, initialise, updateDerived, updateModeDerived,
      fresh, fmax, clamp, fastTanh, imax, qualitySteps, modeSteps, modeCycles, fmod]
  · norm_num [specSubstepMNew, reset, initialise, updateDerived, updateModeDerived,
      fresh, fmax, clamp, fastTanh, imax, qualitySteps, modeSteps, modeCycles, fmod]

/-- C7, amended (the JA sub-step). In a state whose derived constants are those `updateDerived`
computes (`alphaNorm = alpha` and `invANorm = 1 / max(aNorm, 1e-9)`), `executeSubstep` sets
`HPrev` to `HNew = drive + biasAmplitude * offset`, sets `MPrev` to the `MNew` of the stated
update with `max(aNorm, 1e-9)` in the place of `aNorm`, and adds that `MNew` to the running sum;
where `aNorm ≥ 1e-9` this is the stated update itself. -/
theorem executeSubstep_eq_spec (s : State) (b x m : ℚ)
    (ha : s.alphaNorm = s.physics.alphaCoupling)
    (hi : s.invANorm = 1 / fmax s.aNorm (1 / 1000000000)) :
    (executeSubstep s b x m).1.HPrev = x + s.biasAmplitude * b ∧
      (executeSubstep s b x m).1.MPrev
        = specSubstepMNew (fmax s.aNorm (1 / 1000000000)) s x b ∧
      (executeSubstep s b x m).2
        = m + specSubstepMNew (fmax s.aNorm (1 / 1000000000)) s x b ∧
      (1 / 1000000000 ≤ s.aNorm →
        (executeSubstep s b x m).1.MPrev = specSubstepMNew s.aNorm s x b ∧
        (executeSubstep s b x m).2 = m + specSubstepMNew s.aNorm s x b) := by
  have e := substepMNew_eq_spec s b x ha hi
  refine ⟨rfl, ?_, ?_, ?_⟩
  · rw [executeSubstep_MPrev, e]
  · rw [executeSubstep_sum, e]
  · intro hge
    have hf : fmax s.aNorm (1 / 1000000000) = s.aNorm := by
      unfold fmax
      rw [if_neg (not_lt.mpr hge)]
    rw [hf] at e
    rw [executeSubstep_MPrev, executeSubstep_sum, e]
    exact ⟨rfl, rfl⟩

/-- Witness for the amended C7: the instance initialised with the default physics. -/
theorem executeSubstep_eq_spec_witness :
    (executeSubstep (initialise fresh 48000 Mode.K48 {}) (1 / 2) 1 0).1.HPrev
        = 1 + (initialise fresh 48000 Mode.K48 {}).biasAmplitude * (1 / 2) ∧
      (executeSubstep (initialise fresh 48000 Mode.K48 {}) (1 / 2) 1 0).1.MPrev
        = specSubstepMNew (fmax (initialise fresh 48000 Mode.K48 {}).aNorm (1 / 1000000000))
            (initialise fresh 48000 Mode.K48 {}) 1 (1 / 2) ∧
      (executeSubstep (initialise fresh 48000 Mode.K48 {}) (1 / 2) 1 0).2
        = 0 + specSubstepMNew (fmax (initialise fresh 48000 Mode.K48 {}).aNorm (1 / 1000000000))
            (initialise fresh 48000 Mode.K48 {}) 1 (1 / 2) ∧
      (1 / 1000000000 ≤ (initialise fresh 48000 Mode.K48 {}).aNorm →
        (executeSubstep (initialise fresh 48000 Mode.K48 {}) (1 / 2) 1 0).1.MPrev
          = specSubstepMNew (initialise fresh 48000 Mode.K48 {}).aNorm
              (initialise fresh 48000 Mode.K48 {}) 1 (1 / 2) ∧
        (executeSubstep (initialise fresh 48000 Mode.K48 {}) (1 / 2) 1 0).2
          = 0 + specSubstepMNew (initialise fresh 48000 Mode.K48 {}).aNorm
              (initialise fresh 48000 Mode.K48 {}) 1 (1 / 2)) :=
  executeSubstep_eq_spec (initialise fresh 48000 Mode.K48 {}) (1 / 2) 1 0
    (Inv.initialise fresh 48000 Mode.K48 {}).alphaNorm_eq
    (Inv.initialise fresh 48000 Mode.K48 {}).invANorm_eq

theorem clamp_neg (v c : ℚ) (hc : 0 ≤ c) : clamp (-v) (-c) c = -clamp v (-c) c := by
  unfold clamp
  split_ifs <;> linarith

theorem fastTanh_neg (x : ℚ) : fastTanh (-x) = -fastTanh x := by
  unfold fastTanh
  simp only []
  rw [clamp_neg x 3 (by norm_num)]
  ring

/-- C11 (no-op reconfiguration). `setMode` called with the mode that is already active returns
the state it was given: no member changes, the fractional cursor included. -/
theorem setMode_same_mode (s : State) : setMode s s.currentMode = s := by
  unfold setMode
  rw [if_pos rfl]

theorem fmax_eq_max (a b : ℚ) : fmax a b = max a b := by
  unfold fmax
  split_ifs with h
  · exact (max_eq_right (le_of_lt h)).symm
  · exact (max_eq_left (not_lt.mp h)).symm

theorem updateDerived_spec (s : State) :
    (updateDerived s).MsSafe = max s.physics.Ms (1 / 1000000) ∧
      (updateDerived s).aNorm = s.physics.aDensity / (updateDerived s).MsSafe ∧
      (updateDerived s).invANorm = 1 / max (updateDerived s).aNorm (1 / 1000000000) ∧
      (updateDerived s).kNorm = s.physics.kPinning / (updateDerived s).MsSafe ∧
      (updateDerived s).cNorm = s.physics.cReversibility ∧
      (updateDerived s).biasAmplitude = s.biasLevel * s.biasScale ∧
      1 / 1000000 ≤ (updateDerived s).MsSafe ∧
      0 < (updateDerived s).invANorm ∧
      (updateDerived s).invANorm ≤ 1000000000 := by
  have h1 : (updateDerived s).MsSafe = max s.physics.Ms (1 / 1000000) := fmax_eq_max _ _
  have h3 : (updateDerived s).invANorm = 1 / max (updateDerived s).aNorm (1 / 1000000000) := by
    rw [← fmax_eq_max]
    rfl
  have hm : (1 / 1000000000 : ℚ) ≤ max (updateDerived s).aNorm (1 / 1000000000) :=
    le_max_right _ _
  have hpos : (0 : ℚ) < max (updateDerived s).aNorm (1 / 1000000000) := by
    have : (0 : ℚ) < 1 / 1000000000 := by norm_num
    exact lt_of_lt_of_le this hm
  refine ⟨h1, rfl, h3, rfl, rfl, rfl, ?_, ?_, ?_⟩
  · rw [h1]
    exact le_max_right _ _
  · rw [h3]
    exact div_pos one_pos hpos
  · rw [h3, div_le_iff₀ hpos]
    have := mul_le_mul_of_nonneg_left hm (by norm_num : (0 : ℚ) ≤ 1000000000)
    linarith

/-- C12 (derived physics constants and their guards). For every physics value, zero or negative
`Ms` and `a` included, after `setPhysics` and after `initialise` the derived members are
`MsSafe = max(Ms, 1e-6)`, `aNorm = a / MsSafe`, `invANorm = 1 / max(aNorm, 1e-9)`,
`kNorm = k / MsSafe`, `cNorm = c` and `biasAmplitude = biasLevel * biasScale`; hence
`MsSafe ≥ 1e-6` and `0 < invANorm ≤ 1e9`, so neither divisor is zero. -/
theorem derived_constants_guarded (s : State) (p : PhysicsParams) (sr : ℚ) (m : Mode) :
    DerivedAsSpecified p (setPhysics s p) ∧ DerivedAsSpecified p (initialise s sr m p) := by
  constructor
  · exact updateDerived_spec { s with physics := p }
  · rw [initialise_eq]
    exact updateDerived_spec (reset
      { s with
        sampleRate := fmax 1 sr
        currentMode := m
        physics := p
        biasLevel := clamp s.biasLevel 0 1 })

theorem clamp_mono (lo hi : ℚ) (h : lo ≤ hi) {a b : ℚ} (hab : a ≤ b) :
    clamp a lo hi ≤ clamp b lo hi := by
  unfold clamp
  split_ifs <;> linarith

theorem fastTanh_sub_one (c : ℚ) :
    1 - c * (27 + c * c) / (27 + 9 * (c * c)) = (3 - c) ^ 3 / (27 + 9 * (c * c)) := by
  have hpos : (0 : ℚ) < 27 + 9 * (c * c) := by nlinarith [mul_self_nonneg c]
  field_simp
  ring

theorem fastTanh_add_one (c : ℚ) :
    1 + c * (27 + c * c) / (27 + 9 * (c * c)) = (3 + c) ^ 3 / (27 + 9 * (c * c)) := by
  have hpos : (0 : ℚ) < 27 + 9 * (c * c) := by nlinarith [mul_self_nonneg c]
  field_simp
  ring

theorem fastTanh_bounds (x : ℚ) : -1 ≤ fastTanh x ∧ fastTanh x ≤ 1 := by
  have h0 := clamp_ge x (-3) 3 (by norm_num)
  have h1 := clamp_le x (-3) 3 (by norm_num)
  have hpos : (0 : ℚ) < 27 + 9 * (clamp x (-3) 3 * clamp x (-3) 3) := by
    nlinarith [mul_self_nonneg (clamp x (-3) 3)]
  have e1 := fastTanh_sub_one (clamp x (-3) 3)
  have e2 := fastTanh_add_one (clamp x (-3) 3)
  have p1 : 0 ≤ (3 - clamp x (-3) 3) ^ 3 / (27 + 9 * (clamp x (-3) 3 * clamp x (-3) 3)) :=
    div_nonneg (pow_nonneg (by linarith) 3) (le_of_lt hpos)
  have p2 : 0 ≤ (3 + clamp x (-3) 3) ^ 3 / (27 + 9 * (clamp x (-3) 3 * clamp x (-3) 3)) :=
    div_nonneg (pow_nonneg (by linarith) 3) (le_of_lt hpos)
  unfold fastTanh
  simp only []
  constructor <;> linarith

theorem rational_part_mono (a b : ℚ) (hab : a ≤ b) :
    a * (27 + a * a) / (27 + 9 * (a * a)) ≤ b * (27 + b * b) / (27 + 9 * (b * b)) := by
  have ha : (0 : ℚ) < 27 + 9 * (a * a) := by nlinarith [mul_self_nonneg a]
  have hb : (0 : ℚ) < 27 + 9 * (b * b) := by nlinarith [mul_self_nonneg b]
  rw [div_le_div_iff₀ ha hb]
  have key : b * (27 + b * b) * (27 + 9 * (a * a)) - a * (27 + a * a) * (27 + 9 * (b * b))
      = (b - a) * (9 * (a * b - 9) ^ 2 + 27 * (a - b) ^ 2) := by ring
  have hnn : 0 ≤ (b - a) * (9 * (a * b - 9) ^ 2 + 27 * (a - b) ^ 2) :=
    mul_nonneg (by linarith) (by positivity)
  linarith

theorem fastTanh_mono {x y : ℚ} (h : x ≤ y) : fastTanh x ≤ fastTanh y := by
  unfold fastTanh
  simp only []
  exact rational_part_mono _ _ (clamp_mono (-3) 3 (by norm_num) h)

theorem fastTanh_of_ge {x : ℚ} (h : 3 ≤ x) : fastTanh x = 1 := by
  have hc : clamp x (-3) 3 = 3 := by
    unfold clamp
    rw [if_neg (by linarith)]
    split_ifs with h2
    · rfl
    · linarith
  unfold fastTanh
  simp only []
  rw [hc]
  norm_num

/-- C19 (`fastTanh` is a bounded odd saturating curve). For every `x`: `fastTanh (-x)` is
`-fastTanh x`, `fastTanh x` lies in `[-1, 1]`, and `1 - fastTanh x ^ 2` (the slope term of
`executeSubstep`) is not negative; `fastTanh` does not decrease; `fastTanh 0 = 0`; and
`fastTanh x` is `1` for every `x ≥ 3` and `-1` for every `x ≤ -3`. -/
theorem fastTanh_odd_bounded_saturating :
    (∀ x : ℚ, fastTanh (-x) = -fastTanh x) ∧
      (∀ x : ℚ, -1 ≤ fastTanh x ∧ fastTanh x ≤ 1) ∧
      (∀ x : ℚ, 0 ≤ 1 - fastTanh x * fastTanh x) ∧
      (∀ x y : ℚ, x ≤ y → fastTanh x ≤ fastTanh y) ∧
      fastTanh 0 = 0 ∧
      (∀ x : ℚ, 3 ≤ x → fastTanh x = 1) ∧
      (∀ x : ℚ, x ≤ -3 → fastTanh x = -1) := by
  refine ⟨fastTanh_neg, fastTanh_bounds, ?_, fun x y h => fastTanh_mono h, ?_,
    fun x h => fastTanh_of_ge h, ?_⟩
  · intro x
    obtain ⟨h0, h1⟩ := fastTanh_bounds x
    nlinarith
  · norm_num [fastTanh, clamp]
  · intro x h
    have h3 : (3 : ℚ) ≤ -x := by linarith
    have := fastTanh_of_ge h3
    rw [fastTanh_neg] at this
    linarith

theorem process_state_ratio (sinF : ℚ → ℚ) (s : State) (x : ℚ) :
    (process sinF s x).state.biasCyclesPerSample = s.biasCyclesPerSample ∧
      (process sinF s x).state.substepsPerCycle = s.substepsPerCycle := by
  rw [process_frame]
  exact ⟨rfl, rfl⟩

theorem process_state_cursor_bounds (sinF : ℚ → ℚ) (s : State) (x : ℚ) :
    0 ≤ (process sinF s x).state.substepCursor ∧ (process sinF s x).state.substepCursor < 1 := by
  rw [process_state_substepCursor]
  exact processCursor_bounds s

theorem accumulator_exact (sinF : ℚ → ℚ) (s : State) (xs : List ℚ)
    (hc : 0 ≤ s.substepCursor ∧ s.substepCursor < 1) :
    (stepsDueAll sinF s xs).sum
        = ⌊s.substepCursor
            + (xs.length : ℚ) * (s.biasCyclesPerSample * (s.substepsPerCycle : ℚ))⌋ ∧
      (stateAfter sinF s xs).substepCursor
        = s.substepCursor
            + (xs.length : ℚ) * (s.biasCyclesPerSample * (s.substepsPerCycle : ℚ))
            - ((stepsDueAll sinF s xs).sum : ℚ) := by
  induction xs generalizing s with
  | nil =>
    have hfl : ⌊s.substepCursor⌋ = 0 :=
      Int.floor_eq_iff.mpr ⟨by simpa using hc.1, by simpa using hc.2⟩
    simp [stepsDueAll, stateAfter, hfl]
  | cons x xs ih =>
    obtain ⟨r1, r2⟩ := process_state_ratio sinF s x
    obtain ⟨e1, e2⟩ := ih (process sinF s x).state (process_state_cursor_bounds sinF s x)
    rw [r1, r2, process_state_substepCursor] at e1 e2
    have hy : s.substepCursor + s.biasCyclesPerSample * (s.substepsPerCycle : ℚ)
          - (stepsDue s : ℚ)
          + (xs.length : ℚ) * (s.biasCyclesPerSample * (s.substepsPerCycle : ℚ))
        = s.substepCursor
          + ((x :: xs).length : ℚ) * (s.biasCyclesPerSample * (s.substepsPerCycle : ℚ))
          - (stepsDue s : ℚ) := by
      rw [List.length_cons]
      push_cast
      ring
    rw [hy, Int.floor_sub_int] at e1
    constructor
    · rw [stepsDueAll, List.sum_cons, e1]
      ring
    · rw [stateAfter, e2, stepsDueAll, List.sum_cons, hy]
      push_cast
      ring

theorem totalSubsteps_eq_due (sinF : ℚ → ℚ) (s : State) (xs : List ℚ)
    (hc : 0 ≤ s.substepCursor)
    (hR : 1 ≤ s.biasCyclesPerSample * (s.substepsPerCycle : ℚ)) :
    ((totalSubsteps (processAll sinF s xs) : ℕ) : ℤ) = (stepsDueAll sinF s xs).sum := by
  induction xs generalizing s with
  | nil => simp [processAll, totalSubsteps, stepsDueAll]
  | cons x xs ih =>
    obtain ⟨r1, r2⟩ := process_state_ratio sinF s x
    have h := ih (process sinF s x).state (process_state_cursor_bounds sinF s x).1
      (by rw [r1, r2]; exact hR)
    have hd : 1 ≤ stepsDue s := by
      unfold stepsDue
      exact Int.le_floor.mpr (by push_cast; linarith)
    have hl : (((process sinF s x).log.length : ℕ) : ℤ) = stepsDue s := by
      rw [process_log_length, if_neg (by omega)]
      exact Int.toNat_of_nonneg (by omega)
    unfold totalSubsteps at h ⊢
    rw [processAll, List.map_cons, List.sum_cons, Nat.cast_add, hl, h, stepsDueAll,
      List.sum_cons]

/-- C13 (drift-free accumulator). For a ratio `R = biasCyclesPerSample * substepsPerCycle ≥ 0`,
whole or not, and a start cursor `c0` in `[0, 1)`: the whole sub-step counts that `N` consecutive
calls of `process` take out of the cursor sum to `⌊c0 + N * R⌋`, and the cursor after those
calls is the fractional part of `c0 + N * R`; when `R ≥ 1` that sum is the number of sub-steps
executed, and it differs from `N * R` by less than 1. -/
theorem accumulator_drift_free (sinF : ℚ → ℚ) (s : State) (xs : List ℚ)
    (hc : 0 ≤ s.substepCursor ∧ s.substepCursor < 1)
    (hR : 0 ≤ s.biasCyclesPerSample * (s.substepsPerCycle : ℚ)) :
    (stepsDueAll sinF s xs).sum
        = ⌊s.substepCursor
            + (xs.length : ℚ) * (s.biasCyclesPerSample * (s.substepsPerCycle : ℚ))⌋ ∧
      (stateAfter sinF s xs).substepCursor
        = Int.fract (s.substepCursor
            + (xs.length : ℚ) * (s.biasCyclesPerSample * (s.substepsPerCycle : ℚ))) ∧
      (1 ≤ s.biasCyclesPerSample * (s.substepsPerCycle : ℚ) →
        ((totalSubsteps (processAll sinF s xs) : ℕ) : ℤ)
            = ⌊s.substepCursor
                + (xs.length : ℚ) * (s.biasCyclesPerSample * (s.substepsPerCycle : ℚ))⌋ ∧
          |((totalSubsteps (processAll sinF s xs) : ℕ) : ℚ)
              - (xs.length : ℚ) * (s.biasCyclesPerSample * (s.substepsPerCycle : ℚ))| < 1) := by
  obtain ⟨e1, e2⟩ := accumulator_exact sinF s xs hc
  have hN : (0 : ℚ) ≤ (xs.length : ℚ) * (s.biasCyclesPerSample * (s.substepsPerCycle : ℚ)) :=
    mul_nonneg (Nat.cast_nonneg _) hR
  refine ⟨e1, ?_, ?_⟩
  · rw [e2, e1]
    rfl
  · intro h1
    have ht := totalSubsteps_eq_due sinF s xs hc.1 h1
    rw [e1] at ht
    refine ⟨ht, ?_⟩
    have hq : ((totalSubsteps (processAll sinF s xs) : ℕ) : ℚ)
        = ((⌊s.substepCursor
            + (xs.length : ℚ) * (s.biasCyclesPerSample * (s.substepsPerCycle : ℚ))⌋ : ℤ) : ℚ) := by
      exact_mod_cast ht
    have f1 := Int.floor_le (s.substepCursor
      + (xs.length : ℚ) * (s.biasCyclesPerSample * (s.substepsPerCycle : ℚ)))
    have f2 := Int.lt_floor_add_one (s.substepCursor
      + (xs.length : ℚ) * (s.biasCyclesPerSample * (s.substepsPerCycle : ℚ)))
    rw [hq, abs_lt]
    constructor <;> linarith [hc.1, hc.2]

/-- Witness for C13: the ratio 5/2 from the cursor 1/4, three calls. -/
theorem accumulator_drift_free_witness :
    (stepsDueAll (fun _ => 0)
          { fresh with substepCursor := 1 / 4, biasCyclesPerSample := 5 / 2,
                       substepsPerCycle := 1 } [0, 0, 0]).sum
        = ⌊(1 / 4 : ℚ) + (([0, 0, 0] : List ℚ).length : ℚ) * (5 / 2 * ((1 : ℤ) : ℚ))⌋ ∧
      (stateAfter (fun _ => 0)
          { fresh with substepCursor := 1 / 4, biasCyclesPerSample := 5 / 2,
                       substepsPerCycle := 1 } [0, 0, 0]).substepCursor
        = Int.fract ((1 / 4 : ℚ) + (([0, 0, 0] : List ℚ).length : ℚ) * (5 / 2 * ((1 : ℤ) : ℚ))) ∧
      (1 ≤ (5 / 2 : ℚ) * ((1 : ℤ) : ℚ) →
        ((totalSubsteps (processAll (fun _ => 0)
            { fresh with substepCursor := 1 / 4, biasCyclesPerSample := 5 / 2,
                         substepsPerCycle := 1 } [0, 0, 0]) : ℕ) : ℤ)
            = ⌊(1 / 4 : ℚ) + (([0, 0, 0] : List ℚ).length : ℚ) * (5 / 2 * ((1 : ℤ) : ℚ))⌋ ∧
          |((totalSubsteps (processAll (fun _ => 0)
              { fresh with substepCursor := 1 / 4, biasCyclesPerSample := 5 / 2,
                           substepsPerCycle := 1 } [0, 0, 0]) : ℕ) : ℚ)
              - (([0, 0, 0] : List ℚ).length : ℚ) * (5 / 2 * ((1 : ℤ) : ℚ))| < 1) :=
  accumulator_drift_free (fun _ => 0)
    { fresh with substepCursor := 1 / 4, biasCyclesPerSample := 5 / 2, substepsPerCycle := 1 }
    [0, 0, 0] ⟨by norm_num, by norm_num⟩ (by norm_num)

theorem process_log_length_spec {s : State} (h : Inv s) (sinF : ℚ → ℚ) (x : ℚ) :
    (((process sinF s x).log.length : ℕ) : ℚ)
      = specCyclesPerSample s.currentMode
        * ((specSubstepsPerCycle s.currentMode s.qualityMode : ℤ) : ℚ) := by
  have hc : specCyclesPerSample s.currentMode = modeCycles s.currentMode := by
    cases s.currentMode <;> rfl
  have hs : specSubstepsPerCycle s.currentMode s.qualityMode
      = qualitySteps s.qualityMode (modeSteps s.currentMode) := by
    cases s.currentMode <;> cases s.qualityMode <;> rfl
  rw [hc, hs]
  exact (process_log_length_of_inv h sinF x).1

/-- C15 (cursor normalisation invariant). In a state reached from `initialise` by public calls
`substepCursor` lies in `[0, 1)`, and so it does after one more public call of any kind. After
`setMode` or `setQuality` in such a state, `substepPhase` is `kTwoPi / substepsPerCycle`, the
cursor is in `[0, 1)`, and the call of `process` that follows runs exactly the new
cyclesPerSample * substepsPerCycle sub-steps. -/
theorem cursor_normalised (sinF : ℚ → ℚ) (s : State) (h : Reachable sinF s)
    (m : Mode) (q : Quality) (x : ℚ) :
    (0 ≤ s.substepCursor ∧ s.substepCursor < 1) ∧
      (∀ op : Op, 0 ≤ (Op.next sinF s op).substepCursor ∧
        (Op.next sinF s op).substepCursor < 1) ∧
      ((setMode s m).substepPhase = kTwoPi / ((setMode s m).substepsPerCycle : ℚ) ∧
        (0 ≤ (setMode s m).substepCursor ∧ (setMode s m).substepCursor < 1) ∧
        (((process sinF (setMode s m) x).log.length : ℕ) : ℚ)
          = specCyclesPerSample m
            * ((specSubstepsPerCycle m (setMode s m).qualityMode : ℤ) : ℚ)) ∧
      ((setQuality s q).substepPhase = kTwoPi / ((setQuality s q).substepsPerCycle : ℚ) ∧
        (0 ≤ (setQuality s q).substepCursor ∧ (setQuality s q).substepCursor < 1) ∧
        (((process sinF (setQuality s q) x).log.length : ℕ) : ℚ)
          = specCyclesPerSample (setQuality s q).currentMode
            * ((specSubstepsPerCycle (setQuality s q).currentMode q : ℤ) : ℚ)) := by
  have i0 := h.inv
  have im := i0.setMode m
  have iq := i0.setQuality q
  refine ⟨⟨i0.cursor_nonneg, i0.cursor_lt⟩, ?_, ?_, ?_⟩
  · intro op
    have := i0.next sinF op
    exact ⟨this.cursor_nonneg, this.cursor_lt⟩
  · refine ⟨im.stepPhase, ⟨im.cursor_nonneg, im.cursor_lt⟩, ?_⟩
    have := process_log_length_spec im sinF x
    rw [setMode_currentMode] at this
    exact this
  · refine ⟨iq.stepPhase, ⟨iq.cursor_nonneg, iq.cursor_lt⟩, ?_⟩
    have := process_log_length_spec iq sinF x
    rw [setQuality_qualityMode] at this
    exact this

/-- Witness for C15: the instance initialised at 48 kHz in mode K48, switched to K60 or to Eco. -/
theorem cursor_normalised_witness :
    (0 ≤ (initialise fresh 48000 Mode.K48 {}).substepCursor ∧
        (initialise fresh 48000 Mode.K48 {}).substepCursor < 1) ∧
      (∀ op : Op, 0 ≤ (Op.next (fun _ => 0) (initialise fresh 48000 Mode.K48 {}) op).substepCursor ∧
        (Op.next (fun _ => 0) (initialise fresh 48000 Mode.K48 {}) op).substepCursor < 1) ∧
      ((setMode (initialise fresh 48000 Mode.K48 {}) Mode.K60).substepPhase
          = kTwoPi / ((setMode (initialise fresh 48000 Mode.K48 {}) Mode.K60).substepsPerCycle : ℚ) ∧
        (0 ≤ (setMode (initialise fresh 48000 Mode.K48 {}) Mode.K60).substepCursor ∧
          (setMode (initialise fresh 48000 Mode.K48 {}) Mode.K60).substepCursor < 1) ∧
        (((process (fun _ => 0) (setMode (initialise fresh 48000 Mode.K48 {}) Mode.K60)
            1).log.length : ℕ) : ℚ)
          = specCyclesPerSample Mode.K60
            * ((specSubstepsPerCycle Mode.K60
                (setMode (initialise fresh 48000 Mode.K48 {}) Mode.K60).qualityMode : ℤ) : ℚ)) ∧
      ((setQuality (initialise fresh 48000 Mode.K48 {}) Quality.Eco).substepPhase
          = kTwoPi
            / ((setQuality (initialise fresh 48000 Mode.K48 {}) Quality.Eco).substepsPerCycle : ℚ) ∧
        (0 ≤ (setQuality (initialise fresh 48000 Mode.K48 {}) Quality.Eco).substepCursor ∧
          (setQuality (initialise fresh 48000 Mode.K48 {}) Quality.Eco).substepCursor < 1) ∧
        (((process (fun _ => 0) (setQuality (initialise fresh 48000 Mode.K48 {}) Quality.Eco)
            1).log.length : ℕ) : ℚ)
          = specCyclesPerSample
              (setQuality (initialise fresh 48000 Mode.K48 {}) Quality.Eco).currentMode
            * ((specSubstepsPerCycle
                (setQuality (initialise fresh 48000 Mode.K48 {}) Quality.Eco).currentMode
                Quality.Eco : ℤ) : ℚ)) :=
  cursor_normalised (fun _ => 0) (initialise fresh 48000 Mode.K48 {})
    (Reachable.init fresh 48000 Mode.K48 {}) Mode.K60 Quality.Eco 1

theorem loopBody_log (sinF : ℚ → ℚ) (x : ℚ) (a : LoopVars) :
    (loopBody sinF x a).log
      = a.log ++ [{ biasOffset := sinF (fmod (a.phase + a.st.substepPhase * (1 / 2)) kTwoPi),
                    MNew := (loopBody sinF x a).st.MPrev }] := rfl

theorem LogAgrees.loopBody {x : ℚ} {a : LoopVars} (h : LogAgrees x a) (sinF : ℚ → ℚ) :
    LogAgrees x (loopBody sinF x a) := by
  constructor
  · rw [loopBody_log, List.map_append, List.sum_append, ← h.sum_eq, loopBody_sum]
    simp only [List.map_cons, List.map_nil, List.sum_cons, List.sum_nil, add_zero]
    rfl
  · intro e he
    rw [loopBody_log, List.getLast?_concat] at he
    simp only [Option.some.injEq] at he
    subst he
    exact ⟨rfl, rfl⟩

theorem LogAgrees.substepLoop {x : ℚ} {a : LoopVars} (h : LogAgrees x a) (sinF : ℚ → ℚ)
    (n : ℕ) : LogAgrees x (substepLoop sinF x n a) := by
  induction n generalizing a with
  | zero => exact h
  | succ k ih =>
    rw [JAHysteresisScheduler.substepLoop]
    exact ih (h.loopBody sinF)

theorem processLoop_logAgrees (sinF : ℚ → ℚ) (s : State) (x : ℚ) :
    LogAgrees x (processLoop sinF s x) := by
  unfold processLoop
  apply LogAgrees.substepLoop
  constructor
  · rfl
  · intro e he
    simp at he

/-- The log of a call of `process` against what the call returns and stores. -/
theorem process_log_agrees (sinF : ℚ → ℚ) (s : State) (x : ℚ) :
    (process sinF s x).output
        = ((process sinF s x).log.map SubstepLog.MNew).sum
          / (if stepsDue s = 0 then 1 else (stepsDue s : ℚ)) ∧
      (∀ e : SubstepLog, (process sinF s x).log.getLast? = some e →
        (process sinF s x).state.MPrev = e.MNew ∧
          (process sinF s x).state.HPrev = x + s.biasAmplitude * e.biasOffset) ∧
      ((process sinF s x).log = [] →
        (process sinF s x).state.MPrev = s.MPrev ∧ (process sinF s x).state.HPrev = s.HPrev) := by
  have hl := processLoop_logAgrees sinF s x
  have hA : (processLoop sinF s x).st.biasAmplitude = s.biasAmplitude := by
    rw [processLoop_frame]
    rfl
  unfold process
  simp only []
  split_ifs with h0
  · refine ⟨?_, ?_, ?_⟩
    · rw [List.map_append, List.sum_append, ← hl.sum_eq, executeSubstep_sum]
      simp only [List.map_cons, List.map_nil, List.sum_cons, List.sum_nil, add_zero, div_one]
      rfl
    · intro e he
      rw [List.getLast?_concat] at he
      simp only [Option.some.injEq] at he
      subst he
      refine ⟨rfl, ?_⟩
      show x + (processPhase sinF s x).biasAmplitude * _ = x + s.biasAmplitude * _
      have : (processPhase sinF s x).biasAmplitude = (processLoop sinF s x).st.biasAmplitude :=
        rfl
      rw [this, hA]
    · intro he
      simp at he
  · refine ⟨?_, ?_, ?_⟩
    · rw [← hl.sum_eq]
    · intro e he
      have := hl.last_eq e he
      rw [hA] at this
      exact this
    · intro he
      have he' : (processLoop sinF s x).log = [] := he
      have hlen : (processLoop sinF s x).log.length = 0 := by rw [he']; rfl
      unfold processLoop at hlen
      rw [substepLoop_log_length] at hlen
      have hz : (stepsDue s).toNat = 0 := by simpa using hlen
      have hst : processLoop sinF s x
          = { phase := s.biasPhase, st := processCursor s, magnetisationSum := 0, log := [] } := by
        unfold processLoop
        rw [hz]
        rfl
      show (processLoop sinF s x).st.MPrev = s.MPrev ∧ (processLoop sinF s x).st.HPrev = s.HPrev
      rw [hst]
      exact ⟨rfl, rfl⟩

/-- With a non-negative cursor and a non-negative ratio, the value `process` returns is the sum
of the logged `MNew` divided by their number, which is `max(stepsDue, 1)`, and `MPrev` after the
call is the `MNew` of the last logged sub-step. -/
theorem process_mean_of_nonneg (sinF : ℚ → ℚ) (s : State) (x : ℚ)
    (hc : 0 ≤ s.substepCursor)
    (hR : 0 ≤ s.biasCyclesPerSample * (s.substepsPerCycle : ℚ)) :
    (process sinF s x).output
        = ((process sinF s x).log.map SubstepLog.MNew).sum
          / (((process sinF s x).log.length : ℕ) : ℚ) ∧
      (((process sinF s x).log.length : ℕ) : ℤ) = max (stepsDue s) 1 ∧
      (∃ e : SubstepLog, (process sinF s x).log.getLast? = some e ∧
        (process sinF s x).state.MPrev = e.MNew) := by
  have hnn : 0 ≤ stepsDue s := Int.floor_nonneg.mpr (add_nonneg hc hR)
  obtain ⟨a1, a2, _⟩ := process_log_agrees sinF s x
  have hlen : (((process sinF s x).log.length : ℕ) : ℤ) = max (stepsDue s) 1 := by
    rw [process_log_length]
    split_ifs with h0
    · rw [h0]
      rfl
    · rw [Int.toNat_of_nonneg hnn]
      exact (max_eq_left (by omega)).symm
  have hden : (if stepsDue s = 0 then (1 : ℚ) else (stepsDue s : ℚ))
      = (((process sinF s x).log.length : ℕ) : ℚ) := by
    have hq : ((((process sinF s x).log.length : ℕ) : ℤ) : ℚ)
        = ((max (stepsDue s) 1 : ℤ) : ℚ) := by rw [hlen]
    rw [Int.cast_natCast] at hq
    rw [hq]
    split_ifs with h0
    · rw [h0]
      norm_num
    · rw [max_eq_left (by omega)]
  have hne : (process sinF s x).log ≠ [] := by
    intro h
    rw [h] at hlen
    have : (1 : ℤ) ≤ max (stepsDue s) 1 := le_max_right _ _
    simp at hlen
    omega
  refine ⟨?_, hlen, ?_⟩
  · rw [← hden]
    exact a1
  · cases hg : (process sinF s x).log.getLast? with
    | none => exact absurd (List.getLast?_eq_none_iff.mp hg) hne
    | some e => exact ⟨e, rfl, (a2 e hg).1⟩

theorem loopBody_phase (sinF : ℚ → ℚ) (x : ℚ) (a : LoopVars) :
    (loopBody sinF x a).phase = wrapStep a.st.substepPhase a.phase := rfl

theorem substepLoop_substepPhase (sinF : ℚ → ℚ) (x : ℚ) (n : ℕ) (a : LoopVars) :
    (substepLoop sinF x n a).st.substepPhase = a.st.substepPhase := by
  rw [substepLoop_frame]

theorem substepLoop_succ (sinF : ℚ → ℚ) (x : ℚ) (n : ℕ) (a : LoopVars) :
    substepLoop sinF x (n + 1) a = loopBody sinF x (substepLoop sinF x n a) := by
  induction n generalizing a with
  | zero => rfl
  | succ k ih =>
    rw [substepLoop, ih (loopBody sinF x a)]
    rfl

theorem substepLoop_phase (sinF : ℚ → ℚ) (x : ℚ) (n : ℕ) (a : LoopVars) :
    (substepLoop sinF x n a).phase = (wrapStep a.st.substepPhase)^[n] a.phase := by
  induction n with
  | zero => rfl
  | succ k ih =>
    rw [substepLoop_succ, loopBody_phase, substepLoop_substepPhase, ih,
      Function.iterate_succ_apply']

/-- The offsets the loop passes to `executeSubstep`, in order. -/
theorem substepLoop_offsets (sinF : ℚ → ℚ) (x : ℚ) (n : ℕ) (a : LoopVars) :
    (substepLoop sinF x n a).log.map SubstepLog.biasOffset
      = a.log.map SubstepLog.biasOffset
        ++ (List.range n).map (fun i =>
            sinF (fmod ((wrapStep a.st.substepPhase)^[i] a.phase
              + a.st.substepPhase * (1 / 2)) kTwoPi)) := by
  induction n with
  | zero => simp [substepLoop]
  | succ k ih =>
    rw [substepLoop_succ, loopBody_log, List.map_append, ih, substepLoop_phase,
      substepLoop_substepPhase, List.range_succ, List.map_append, List.append_assoc]
    rfl

theorem wrapStep_iterate_congr (sp p : ℚ) (n : ℕ) :
    ∃ k : ℤ, (wrapStep sp)^[n] p = p + (n : ℚ) * sp - (k : ℚ) * kTwoPi := by
  induction n with
  | zero => exact ⟨0, by simp⟩
  | succ m ih =>
    obtain ⟨k, hk⟩ := ih
    rw [Function.iterate_succ_apply', hk]
    unfold wrapStep
    split_ifs with h
    · exact ⟨k + 1, by push_cast; ring⟩
    · exact ⟨k, by push_cast; ring⟩

theorem periodic_int (sinF : ℚ → ℚ) (hper : ∀ t : ℚ, sinF (t + kTwoPi) = sinF t)
    (k : ℤ) (t : ℚ) : sinF (t + (k : ℚ) * kTwoPi) = sinF t := by
  have hnat : ∀ (n : ℕ) (u : ℚ), sinF (u + (n : ℚ) * kTwoPi) = sinF u := by
    intro n
    induction n with
    | zero => intro u; simp
    | succ m ih =>
      intro u
      have : u + ((m + 1 : ℕ) : ℚ) * kTwoPi = (u + (m : ℚ) * kTwoPi) + kTwoPi := by
        push_cast
        ring
      rw [this, hper, ih]
  rcases Int.eq_nat_or_neg k with ⟨n, rfl | rfl⟩
  · exact_mod_cast hnat n t
  · have := hnat n (t + ((-(n : ℤ) : ℤ) : ℚ) * kTwoPi)
    rw [← this]
    congr 1
    push_cast
    ring

theorem periodic_fmod (sinF : ℚ → ℚ) (hper : ∀ t : ℚ, sinF (t + kTwoPi) = sinF t)
    (y : ℚ) : sinF (fmod y kTwoPi) = sinF y := by
  have := periodic_int sinF hper (-(truncQ (y / kTwoPi))) y
  rw [← this]
  congr 1
  unfold fmod
  push_cast
  ring

theorem process_offsets (sinF : ℚ → ℚ) (s : State) (x : ℚ) (hn : stepsDue s ≠ 0) :
    (process sinF s x).log.map SubstepLog.biasOffset
      = (List.range (stepsDue s).toNat).map (fun i =>
          sinF (fmod ((wrapStep s.substepPhase)^[i] s.biasPhase
            + s.substepPhase * (1 / 2)) kTwoPi)) := by
  have hl : (process sinF s x).log = (processLoop sinF s x).log := by
    unfold process
    simp only []
    rw [if_neg hn]
  rw [hl]
  unfold processLoop
  rw [substepLoop_offsets]
  rfl

/-- C14 (midpoint sampling). Let the sine be periodic with period `kTwoPi`. In a call of
`process` with `n ≥ 1` sub-steps due, entered with `biasPhase = p` (in `[0, kTwoPi)` or not), the
`i`-th sub-step (`i = 0 … n-1`) is given the offset `sin (p + (i + 1/2) * substepPhase)`, and
the loop phase before it is `p` advanced `i` times by one `substepPhase`, wrapped at `kTwoPi`. -/
theorem midpoint_sampling (sinF : ℚ → ℚ) (hper : ∀ t : ℚ, sinF (t + kTwoPi) = sinF t)
    (s : State) (x : ℚ) (hn : 1 ≤ stepsDue s) :
    (process sinF s x).log.map SubstepLog.biasOffset
        = (List.range (stepsDue s).toNat).map (fun i : ℕ =>
            sinF (s.biasPhase + ((i : ℚ) + 1 / 2) * s.substepPhase)) ∧
      (process sinF s x).log.length = (stepsDue s).toNat ∧
      (∀ i : ℕ,
        (substepLoop sinF x i
            { phase := s.biasPhase, st := processCursor s, magnetisationSum := 0, log := [] }).phase
          = (wrapStep s.substepPhase)^[i] s.biasPhase) := by
  have hne : stepsDue s ≠ 0 := by omega
  refine ⟨?_, ?_, ?_⟩
  · rw [process_offsets sinF s x hne]
    apply List.map_congr_left
    intro i _
    obtain ⟨k, hk⟩ := wrapStep_iterate_congr s.substepPhase s.biasPhase i
    rw [periodic_fmod sinF hper, hk]
    have := periodic_int sinF hper (-k) (s.biasPhase + ((i : ℚ) + 1 / 2) * s.substepPhase)
    rw [← this]
    congr 1
    push_cast
    ring
  · rw [process_log_length, if_neg hne]
  · intro i
    exact substepLoop_phase sinF x i _

/-- Witness for C14: a saw-tooth of period `kTwoPi` for the sine, and the instance initialised at
48 kHz in mode K48. -/
theorem midpoint_sampling_witness :
    (process (fun t => Int.fract (t / kTwoPi)) (initialise fresh 48000 Mode.K48 {}) 1).log.map
          SubstepLog.biasOffset
        = (List.range (stepsDue (initialise fresh 48000 Mode.K48 {})).toNat).map (fun i : ℕ =>
            (fun t => Int.fract (t / kTwoPi))
              ((initialise fresh 48000 Mode.K48 {}).biasPhase
                + ((i : ℚ) + 1 / 2) * (initialise fresh 48000 Mode.K48 {}).substepPhase)) ∧
      (process (fun t => Int.fract (t / kTwoPi)) (initialise fresh 48000 Mode.K48 {}) 1).log.length
        = (stepsDue (initialise fresh 48000 Mode.K48 {})).toNat ∧
      (∀ i : ℕ,
        (substepLoop (fun t => Int.fract (t / kTwoPi)) 1 i
            { phase := (initialise fresh 48000 Mode.K48 {}).biasPhase,
              st := processCursor (initialise fresh 48000 Mode.K48 {}),
              magnetisationSum := 0, log := [] }).phase
          = (wrapStep (initialise fresh 48000 Mode.K48 {}).substepPhase)^[i]
              (initialise fresh 48000 Mode.K48 {}).biasPhase) :=
  midpoint_sampling (fun t => Int.fract (t / kTwoPi))
    (fun t => by
      show Int.fract ((t + kTwoPi) / kTwoPi) = Int.fract (t / kTwoPi)
      have h : (t + kTwoPi) / kTwoPi = t / kTwoPi + 1 := by
        have := kTwoPi_pos
        field_simp
      rw [h, Int.fract_add_one])
    (initialise fresh 48000 Mode.K48 {}) 1
    (by
      have := (Inv.initialise fresh 48000 Mode.K48 {}).stepsDue_eq.2.1
      omega)

theorem wrapStep_iterate_bounds (sp p : ℚ) (n : ℕ) (hp : 0 ≤ p ∧ p < kTwoPi)
    (hs : 0 ≤ sp ∧ sp ≤ kTwoPi) :
    0 ≤ (wrapStep sp)^[n] p ∧ (wrapStep sp)^[n] p < kTwoPi := by
  induction n with
  | zero => exact hp
  | succ m ih =>
    rw [Function.iterate_succ_apply']
    obtain ⟨i0, i1⟩ := ih
    generalize (wrapStep sp)^[m] p = q at i0 i1
    unfold wrapStep
    split_ifs with h
    · constructor <;> linarith [hs.1, hs.2]
    · exact ⟨by linarith [hs.1], not_le.mp h⟩

/-- A whole number of cycles brings the wrapped phase back to where it started. -/
theorem wrapStep_whole_cycles (sp p : ℚ) (n : ℕ) (c : ℤ) (hp : 0 ≤ p ∧ p < kTwoPi)
    (hs : 0 ≤ sp ∧ sp ≤ kTwoPi) (hc : (n : ℚ) * sp = (c : ℚ) * kTwoPi) :
    (wrapStep sp)^[n] p = p := by
  obtain ⟨k, hk⟩ := wrapStep_iterate_congr sp p n
  obtain ⟨b0, b1⟩ := wrapStep_iterate_bounds sp p n hp hs
  have hT := kTwoPi_pos
  rw [hk, hc] at b0 b1
  have h1 : ((c - k : ℤ) : ℚ) * kTwoPi < 1 * kTwoPi := by
    push_cast
    linarith [hp.1]
  have h2 : (-1 : ℚ) * kTwoPi < ((c - k : ℤ) : ℚ) * kTwoPi := by
    push_cast
    linarith [hp.2]
  have h3 : ((c - k : ℤ) : ℚ) < 1 := lt_of_mul_lt_mul_right h1 (le_of_lt hT)
  have h4 : (-1 : ℚ) < ((c - k : ℤ) : ℚ) := lt_of_mul_lt_mul_right h2 (le_of_lt hT)
  have h5 : c - k < 1 := by exact_mod_cast h3
  have h6 : -1 < c - k := by exact_mod_cast h4
  have h7 : c = k := by omega
  rw [hk, hc, h7]
  ring

theorem modeCycles_int (m : Mode) : ∃ c : ℤ, modeCycles m = (c : ℚ) := by
  cases m
  · exact ⟨2, by norm_num [modeCycles]⟩
  · exact ⟨3, by norm_num [modeCycles]⟩
  · exact ⟨3, by norm_num [modeCycles]⟩

/-- C20 (whole bias cycles per sample). In a state whose `biasCyclesPerSample`,
`substepsPerCycle` and `substepPhase` are those `updateModeDerived` sets for the active mode and
quality, with `substepCursor = 0` and `biasPhase` in `[0, kTwoPi)`, in exact arithmetic a call of
`process` leaves `biasPhase` (and the cursor) as it was; so the next call passes the same
sequence of bias offsets to its sub-steps. -/
theorem whole_cycles_per_sample (sinF : ℚ → ℚ) (s : State) (x y : ℚ)
    (hcyc : s.biasCyclesPerSample = modeCycles s.currentMode)
    (hst : s.substepsPerCycle = qualitySteps s.qualityMode (modeSteps s.currentMode))
    (hsp : s.substepPhase = kTwoPi / (s.substepsPerCycle : ℚ))
    (hc : s.substepCursor = 0)
    (hp : 0 ≤ s.biasPhase ∧ s.biasPhase < kTwoPi) :
    (process sinF s x).state.biasPhase = s.biasPhase ∧
      (process sinF s x).state.substepCursor = 0 ∧
      (process sinF (process sinF s x).state y).log.map SubstepLog.biasOffset
        = (process sinF s x).log.map SubstepLog.biasOffset := by
  have hT := kTwoPi_pos
  obtain ⟨ft1, ft2, ft3⟩ := floor_table s.currentMode s.qualityMode s.substepCursor
    (by rw [hc]) (by rw [hc]; norm_num)
  have hd : ((stepsDue s : ℤ) : ℚ) = s.biasCyclesPerSample * (s.substepsPerCycle : ℚ) := by
    unfold stepsDue
    rw [hcyc, hst]
    exact ft1
  have hd32 : 32 ≤ stepsDue s := by
    unfold stepsDue
    rw [hcyc, hst]
    exact ft2
  have hne : stepsDue s ≠ 0 := by omega
  have hsr := table_steps_range s.currentMode s.qualityMode
  rw [← hst] at hsr
  have hstq : (16 : ℚ) ≤ (s.substepsPerCycle : ℚ) := by exact_mod_cast hsr.1
  have hstpos : (0 : ℚ) < (s.substepsPerCycle : ℚ) := by linarith
  have hs : 0 ≤ s.substepPhase ∧ s.substepPhase ≤ kTwoPi := by
    rw [hsp]
    constructor
    · exact div_nonneg (le_of_lt hT) (le_of_lt hstpos)
    · rw [div_le_iff₀ hstpos]
      nlinarith
  -- the cursor after the call
  have hcur : (process sinF s x).state.substepCursor = 0 := by
    rw [process_state_substepCursor, hc, hd]
    ring
  -- the loop phase after the call
  obtain ⟨c, hcz⟩ := modeCycles_int s.currentMode
  have hN : (((stepsDue s).toNat : ℕ) : ℚ) * s.substepPhase = (c : ℚ) * kTwoPi := by
    have h1 : (((stepsDue s).toNat : ℕ) : ℚ) = ((stepsDue s : ℤ) : ℚ) := by
      have := Int.toNat_of_nonneg (by omega : 0 ≤ stepsDue s)
      exact_mod_cast this
    rw [h1, hd, hcyc, hcz, hsp]
    field_simp
    ring
  have hloop : (processLoop sinF s x).phase = s.biasPhase := by
    unfold processLoop
    rw [substepLoop_phase]
    exact wrapStep_whole_cycles s.substepPhase s.biasPhase _ c hp hs hN
  have hlc : (processLoop sinF s x).st.substepCursor = 0 := by
    rw [processLoop_frame]
    show (processCursor s).substepCursor = 0
    unfold processCursor
    simp only []
    rw [hc, hd]
    ring
  have hph : (process sinF s x).state.biasPhase = s.biasPhase := by
    rw [process_state_biasPhase]
    unfold processPhase
    simp only []
    rw [hloop, hlc, zero_mul, add_zero, if_neg (not_le.mpr hp.2)]
  have hsp' : (process sinF s x).state.substepPhase = s.substepPhase := by
    rw [process_frame]
  have hd' : stepsDue (process sinF s x).state = stepsDue s := by
    obtain ⟨r1, r2⟩ := process_state_ratio sinF s x
    unfold stepsDue
    rw [r1, r2, hcur, hc]
  refine ⟨hph, hcur, ?_⟩
  rw [process_offsets sinF _ y (by rw [hd']; exact hne), process_offsets sinF s x hne,
    hd', hph, hsp']

/-- Witness for C20: the instance initialised at 48 kHz in mode K48. -/
theorem whole_cycles_per_sample_witness :
    (process (fun _ => 1) (initialise fresh 48000 Mode.K48 {}) 1).state.biasPhase
        = (initialise fresh 48000 Mode.K48 {}).biasPhase ∧
      (process (fun _ => 1) (initialise fresh 48000 Mode.K48 {}) 1).state.substepCursor = 0 ∧
      (process (fun _ => 1) (process (fun _ => 1) (initialise fresh 48000 Mode.K48 {}) 1).state
          2).log.map SubstepLog.biasOffset
        = (process (fun _ => 1) (initialise fresh 48000 Mode.K48 {}) 1).log.map
            SubstepLog.biasOffset :=
  have hi : Inv (initialise fresh 48000 Mode.K48 {}) := Inv.initialise fresh 48000 Mode.K48 {}
  whole_cycles_per_sample (fun _ => 1) (initialise fresh 48000 Mode.K48 {}) 1 2
    hi.cycles hi.steps hi.stepPhase
    (by rw [initialise_eq]; rfl)
    ⟨hi.phase_nonneg, hi.phase_lt⟩

theorem tanhGrid_checked : tanhCheck 0 1 1 tanhGrid = true := by decide!

theorem fastTanh_eq_core (x : ℚ) : fastTanh x = fastTanhCore (clamp x (-3) 3) := rfl

theorem roundDown_le (q : ℚ) : roundDown q ≤ q := by
  unfold roundDown
  rw [div_le_iff₀ (by norm_num)]
  exact Int.floor_le _

theorem le_roundUp (q : ℚ) : q ≤ roundUp q := by
  unfold roundUp
  rw [le_div_iff₀ (by norm_num)]
  exact Int.le_ceil _

theorem one_le_roundDown (q : ℚ) (h : 1 ≤ q) : 1 ≤ roundDown q := by
  unfold roundDown
  rw [le_div_iff₀ (by norm_num), one_mul]
  have : (1000000000 : ℤ) ≤ ⌊q * 1000000000⌋ := by
    apply Int.le_floor.mpr
    push_cast
    linarith
  exact_mod_cast this

theorem real_tanh_eq_exp (x : ℝ) :
    Real.tanh x = (Real.exp (2 * x) - 1) / (Real.exp (2 * x) + 1) := by
  have he : Real.exp (2 * x) = Real.exp x * Real.exp x := by
    rw [← Real.exp_add]
    congr 1
    ring
  have hn : Real.exp (-x) = (Real.exp x)⁻¹ := Real.exp_neg x
  have hp := Real.exp_pos x
  rw [Real.tanh_eq_sinh_div_cosh, Real.sinh_eq, Real.cosh_eq, he, hn]
  field_simp

/-- From bounds on `exp (2 x)` to bounds on `tanh x`. -/
theorem real_tanh_bounds (x lo hi : ℝ) (hlo : 0 < lo) (h1 : lo ≤ Real.exp (2 * x))
    (h2 : Real.exp (2 * x) ≤ hi) :
    (lo - 1) / (lo + 1) ≤ Real.tanh x ∧ Real.tanh x ≤ (hi - 1) / (hi + 1) := by
  have hp := Real.exp_pos (2 * x)
  have hhi : 0 < hi := lt_of_lt_of_le hp h2
  rw [real_tanh_eq_exp]
  constructor
  · rw [div_le_div_iff₀ (by linarith) (by linarith)]
    nlinarith
  · rw [div_le_div_iff₀ (by linarith) (by linarith)]
    nlinarith

theorem real_core_mono (a b : ℝ) (hab : a ≤ b) :
    a * (27 + a * a) / (27 + 9 * (a * a)) ≤ b * (27 + b * b) / (27 + 9 * (b * b)) := by
  have ha : (0 : ℝ) < 27 + 9 * (a * a) := by nlinarith [mul_self_nonneg a]
  have hb : (0 : ℝ) < 27 + 9 * (b * b) := by nlinarith [mul_self_nonneg b]
  rw [div_le_div_iff₀ ha hb]
  have key : b * (27 + b * b) * (27 + 9 * (a * a)) - a * (27 + a * a) * (27 + 9 * (b * b))
      = (b - a) * (9 * (a * b - 9) ^ 2 + 27 * (a - b) ^ 2) := by ring
  have hnn : 0 ≤ (b - a) * (9 * (a * b - 9) ^ 2 + 27 * (a - b) ^ 2) :=
    mul_nonneg (by linarith) (by positivity)
  linarith

theorem real_exp_lower (t : ℝ) (ht : 0 ≤ t) : 1 + t + t ^ 2 / 2 ≤ Real.exp t :=
  Real.quadratic_le_exp_of_nonneg ht

theorem real_exp_upper (t : ℝ) (h0 : 0 ≤ t) (h1 : t ≤ 1) :
    Real.exp t ≤ 1 + t + t ^ 2 / 2 + t ^ 3 * (2 / 9) := by
  have h := Real.exp_bound' h0 h1 (n := 3) (by norm_num)
  have hs : (∑ m ∈ Finset.range 3, t ^ m / (m.factorial : ℝ)) = 1 + t + t ^ 2 / 2 := by
    simp [Finset.sum_range_succ, Nat.factorial]
  rw [hs] at h
  have hr : t ^ 3 * ((3 : ℕ) + 1 : ℝ) / (((3 : ℕ).factorial : ℝ) * (3 : ℕ))
      = t ^ 3 * (2 / 9) := by
    simp [Nat.factorial]
    ring
  rw [hr] at h
  exact h

theorem tanh_cell (a b x : ℝ) (lo hi : ℝ) (ha : a ≤ x) (hb : x ≤ b) (hlo : 0 < lo)
    (h1 : lo ≤ Real.exp (2 * a)) (h2 : Real.exp (2 * b) ≤ hi)
    (c1 : b * (27 + b * b) / (27 + 9 * (b * b)) - (lo - 1) / (lo + 1) ≤ 1 / 40)
    (c2 : (hi - 1) / (hi + 1) - a * (27 + a * a) / (27 + 9 * (a * a)) ≤ 1 / 40) :
    |x * (27 + x * x) / (27 + 9 * (x * x)) - Real.tanh x| ≤ 1 / 40 := by
  have e1 : Real.exp (2 * a) ≤ Real.exp (2 * x) := Real.exp_le_exp.mpr (by linarith)
  have e2 : Real.exp (2 * x) ≤ Real.exp (2 * b) := Real.exp_le_exp.mpr (by linarith)
  obtain ⟨t1, t2⟩ := real_tanh_bounds x lo hi hlo (le_trans h1 e1) (le_trans e2 h2)
  have m1 := real_core_mono a x ha
  have m2 := real_core_mono x b hb
  rw [abs_le]
  constructor <;> linarith

theorem tanhCheck_sound (hs : List ℚ) :
    ∀ a lo hi : ℚ, 0 ≤ a → 1 ≤ lo → (lo : ℝ) ≤ Real.exp (2 * (a : ℝ)) →
      Real.exp (2 * (a : ℝ)) ≤ (hi : ℝ) → tanhCheck a lo hi hs = true →
      ∀ x : ℝ, (a : ℝ) ≤ x → x ≤ 3 →
        |x * (27 + x * x) / (27 + 9 * (x * x)) - Real.tanh x| ≤ 1 / 40 := by
  induction hs with
  | nil =>
    intro a lo hi _ _ _ _ hc x hax hx3
    unfold tanhCheck at hc
    have h3 : (3 : ℚ) < a := of_decide_eq_true hc
    have h3r : (3 : ℝ) < (a : ℝ) := by exact_mod_cast h3
    linarith
  | cons h hs ih =>
    intro a lo hi ha hlo hle hhi hc x hax hx3
    unfold tanhCheck at hc
    rw [Bool.and_eq_true] at hc
    obtain ⟨hd, hrest⟩ := hc
    obtain ⟨hpos, hsmall, c1, c2⟩ := of_decide_eq_true hd
    have hposr : (0 : ℝ) < (h : ℝ) := by exact_mod_cast hpos
    have hsmallr : 2 * (h : ℝ) ≤ 1 := by exact_mod_cast hsmall
    have hadd : Real.exp (2 * ((a + h : ℚ) : ℝ))
        = Real.exp (2 * (a : ℝ)) * Real.exp (2 * (h : ℝ)) := by
      rw [← Real.exp_add]
      congr 1
      push_cast
      ring
    have hepos := Real.exp_pos (2 * (a : ℝ))
    have hl := real_exp_lower (2 * (h : ℝ)) (by linarith)
    have hu := real_exp_upper (2 * (h : ℝ)) (by linarith) hsmallr
    have hlor : (1 : ℝ) ≤ (lo : ℝ) := by exact_mod_cast hlo
    have hlo' : ((roundDown (lo * expLower (2 * h)) : ℚ) : ℝ)
        ≤ Real.exp (2 * ((a + h : ℚ) : ℝ)) := by
      have r1 : ((roundDown (lo * expLower (2 * h)) : ℚ) : ℝ)
          ≤ ((lo * expLower (2 * h) : ℚ) : ℝ) := by exact_mod_cast roundDown_le _
      have r2 : ((lo * expLower (2 * h) : ℚ) : ℝ)
          = (lo : ℝ) * (1 + 2 * (h : ℝ) + (2 * (h : ℝ)) ^ 2 / 2) := by
        unfold expLower
        push_cast
        ring
      have r3 : (lo : ℝ) * (1 + 2 * (h : ℝ) + (2 * (h : ℝ)) ^ 2 / 2)
          ≤ Real.exp (2 * (a : ℝ)) * Real.exp (2 * (h : ℝ)) :=
        mul_le_mul hle hl (by positivity) (le_of_lt hepos)
      rw [hadd]
      linarith
    have hhi' : Real.exp (2 * ((a + h : ℚ) : ℝ))
        ≤ ((roundUp (hi * expUpper (2 * h)) : ℚ) : ℝ) := by
      have r1 : ((hi * expUpper (2 * h) : ℚ) : ℝ)
          ≤ ((roundUp (hi * expUpper (2 * h)) : ℚ) : ℝ) := by exact_mod_cast le_roundUp _
      have r2 : ((hi * expUpper (2 * h) : ℚ) : ℝ)
          = (hi : ℝ) * (1 + 2 * (h : ℝ) + (2 * (h : ℝ)) ^ 2 / 2 + (2 * (h : ℝ)) ^ 3 * (2 / 9)) := by
        unfold expUpper
        push_cast
        ring
      have r3 : Real.exp (2 * (a : ℝ)) * Real.exp (2 * (h : ℝ))
          ≤ (hi : ℝ) * (1 + 2 * (h : ℝ) + (2 * (h : ℝ)) ^ 2 / 2 + (2 * (h : ℝ)) ^ 3 * (2 / 9)) :=
        mul_le_mul hhi hu (le_of_lt (Real.exp_pos _)) (le_trans (le_of_lt hepos) hhi)
      rw [hadd]
      linarith
    by_cases hxb : x ≤ ((a + h : ℚ) : ℝ)
    · have c1r : (((a + h : ℚ) : ℝ)) * (27 + ((a + h : ℚ) : ℝ) * ((a + h : ℚ) : ℝ))
            / (27 + 9 * (((a + h : ℚ) : ℝ) * ((a + h : ℚ) : ℝ)))
            - ((lo : ℝ) - 1) / ((lo : ℝ) + 1) ≤ 1 / 40 := by
        have := (Rat.cast_le (K := ℝ)).mpr c1
        unfold fastTanhCore at this
        push_cast at this
        push_cast
        exact this
      have c2r : ((((roundUp (hi * expUpper (2 * h)) : ℚ) : ℝ)) - 1)
            / ((((roundUp (hi * expUpper (2 * h)) : ℚ) : ℝ)) + 1)
            - (a : ℝ) * (27 + (a : ℝ) * (a : ℝ)) / (27 + 9 * ((a : ℝ) * (a : ℝ))) ≤ 1 / 40 := by
        have := (Rat.cast_le (K := ℝ)).mpr c2
        unfold fastTanhCore at this
        push_cast at this
        exact this
      exact tanh_cell (a : ℝ) ((a + h : ℚ) : ℝ) x (lo : ℝ)
        ((roundUp (hi * expUpper (2 * h)) : ℚ) : ℝ) hax hxb (by linarith) hle hhi' c1r c2r
    · have hel : (1 : ℚ) ≤ expLower (2 * h) := by
        unfold expLower
        nlinarith [sq_nonneg (2 * h)]
      exact ih (a + h) (roundDown (lo * expLower (2 * h))) (roundUp (hi * expUpper (2 * h)))
        (by linarith) (one_le_roundDown _ (by nlinarith)) hlo' hhi' hrest x
        (le_of_lt (not_le.mp hxb)) hx3

theorem tanh_tolerance_nonneg (x : ℝ) (h0 : 0 ≤ x) (h1 : x ≤ 3) :
    |x * (27 + x * x) / (27 + 9 * (x * x)) - Real.tanh x| ≤ 1 / 40 := by
  have hz : Real.exp (2 * ((0 : ℚ) : ℝ)) = 1 := by simp
  exact tanhCheck_sound tanhGrid 0 1 1 (le_refl 0) (le_refl 1)
    (by rw [hz]; norm_num) (by rw [hz]; norm_num) tanhGrid_checked x (by simpa using h0) h1

/-- C18 (tolerance of the tanh approximation). For every real `x` in the clamped domain
`[-3, 3]` the value `x (27 + x²) / (27 + 9 x²)`, which is what `fastTanh` returns at `x`
(whenever `x` is a rational, as every double is), is within 0.025 of the exact hyperbolic
tangent of `x`. -/
theorem fastTanh_tolerance (x : ℝ) (h0 : -3 ≤ x) (h1 : x ≤ 3) :
    |x * (27 + x * x) / (27 + 9 * (x * x)) - Real.tanh x| ≤ 1 / 40 ∧
      (∀ q : ℚ, (q : ℝ) = x →
        ((fastTanh q : ℚ) : ℝ) = x * (27 + x * x) / (27 + 9 * (x * x)) ∧
        |((fastTanh q : ℚ) : ℝ) - Real.tanh (q : ℝ)| ≤ 1 / 40) := by
  have main : |x * (27 + x * x) / (27 + 9 * (x * x)) - Real.tanh x| ≤ 1 / 40 := by
    rcases le_total 0 x with hx | hx
    · exact tanh_tolerance_nonneg x hx h1
    · have h := tanh_tolerance_nonneg (-x) (by linarith) (by linarith)
      rw [Real.tanh_neg] at h
      have e : -x * (27 + -x * -x) / (27 + 9 * (-x * -x)) - -Real.tanh x
          = -(x * (27 + x * x) / (27 + 9 * (x * x)) - Real.tanh x) := by ring
      rw [e, abs_neg] at h
      exact h
  refine ⟨main, ?_⟩
  intro q hq
  have hq0 : (-3 : ℚ) ≤ q := by
    have : ((-3 : ℚ) : ℝ) ≤ (q : ℝ) := by rw [hq]; push_cast; exact h0
    exact_mod_cast this
  have hq1 : q ≤ (3 : ℚ) := by
    have : (q : ℝ) ≤ ((3 : ℚ) : ℝ) := by rw [hq]; push_cast; exact h1
    exact_mod_cast this
  have hf : ((fastTanh q : ℚ) : ℝ) = x * (27 + x * x) / (27 + 9 * (x * x)) := by
    rw [fastTanh_eq_core, clamp_of_mem q (-3) 3 hq0 hq1, ← hq]
    unfold fastTanhCore
    push_cast
    rfl
  refine ⟨hf, ?_⟩
  rw [hf, hq]
  exact main

/-- Witness for C18: the argument 1. -/
theorem fastTanh_tolerance_witness :
    |(1 : ℝ) * (27 + 1 * 1) / (27 + 9 * (1 * 1)) - Real.tanh 1| ≤ 1 / 40 ∧
      (∀ q : ℚ, (q : ℝ) = 1 →
        ((fastTanh q : ℚ) : ℝ) = (1 : ℝ) * (27 + 1 * 1) / (27 + 9 * (1 * 1)) ∧
        |((fastTanh q : ℚ) : ℝ) - Real.tanh (q : ℝ)| ≤ 1 / 40) :=
  fastTanh_tolerance 1 (by norm_num) (by norm_num)

theorem runnable_updateModeDerived {s : State} (h : 0 ≤ s.substepCursor) :
    Runnable (updateModeDerived s) := by
  have hr := table_steps_range s.currentMode s.qualityMode
  have hR : (0 : ℚ) ≤ modeCycles s.currentMode
      * ((imax (qualitySteps s.qualityMode (modeSteps s.currentMode)) 4 : ℤ) : ℚ) := by
    rw [imax_table]
    have h16 : (16 : ℚ) ≤ ((qualitySteps s.qualityMode (modeSteps s.currentMode) : ℤ) : ℚ) := by
      exact_mod_cast hr.1
    have hc : (0 : ℚ) ≤ modeCycles s.currentMode := by
      cases s.currentMode <;> norm_num [modeCycles]
    exact mul_nonneg hc (by linarith)
  unfold JAHysteresisScheduler.updateModeDerived
  simp only []
  split_ifs with hc
  · exact ⟨(fmod_nonneg_lt s.substepCursor 1 h one_pos).1, hR⟩
  · exact ⟨h, hR⟩

theorem runnable_next {s : State} (h : Runnable s) (sinF : ℚ → ℚ) (op : Op) :
    Runnable (Op.next sinF s op) := by
  cases op with
  | initialise sr m p =>
    have hi := Inv.initialise s sr m p
    have hd := hi.stepsDue_eq
    refine ⟨hi.cursor_nonneg, ?_⟩
    show 0 ≤ (initialise s sr m p).biasCyclesPerSample
      * ((initialise s sr m p).substepsPerCycle : ℚ)
    rw [← hd.1]
    exact_mod_cast (by omega : (0 : ℤ) ≤ stepsDue (initialise s sr m p))
  | reset => exact ⟨le_refl 0, h.2⟩
  | setMode m =>
    show Runnable (setMode s m)
    unfold setMode
    split_ifs with e
    · exact h
    · exact runnable_updateModeDerived h.1
  | setPhysics p => exact h
  | setBiasControls l sc => exact h
  | setQuality q => exact runnable_updateModeDerived h.1
  | process x =>
    obtain ⟨r1, r2⟩ := process_state_ratio sinF s x
    refine ⟨(process_state_cursor_bounds sinF s x).1, ?_⟩
    show 0 ≤ (process sinF s x).state.biasCyclesPerSample
      * ((process sinF s x).state.substepsPerCycle : ℚ)
    rw [r1, r2]
    exact h.2

theorem runOps_runnable (sinF : ℚ → ℚ) (s : State) (ops : List Op) (h : Runnable s) :
    Runnable (runOps sinF s ops) := by
  induction ops generalizing s with
  | nil => exact h
  | cons op ops ih => exact ih _ (runnable_next h sinF op)

theorem fresh_runnable : Runnable fresh := by
  constructor <;> norm_num [fresh]

/-- C16 (`process` returns the mean of its sub-steps). In every state an instance can be in
(a fresh instance after any sequence of public calls, initialised or not) and for every input,
the value `process` returns is the sum of the `MNew` values committed by the sub-steps it
executed, divided by their number, which is `max(stepsDue, 1)`; and `MPrev` after the call is the
`MNew` of the last of them. -/
theorem process_returns_mean (sinF : ℚ → ℚ) (ops : List Op) (x : ℚ) :
    (process sinF (runOps sinF fresh ops) x).output
        = ((process sinF (runOps sinF fresh ops) x).log.map SubstepLog.MNew).sum
          / (((process sinF (runOps sinF fresh ops) x).log.length : ℕ) : ℚ) ∧
      (((process sinF (runOps sinF fresh ops) x).log.length : ℕ) : ℤ)
        = max (stepsDue (runOps sinF fresh ops)) 1 ∧
      (∃ e : SubstepLog,
        (process sinF (runOps sinF fresh ops) x).log.getLast? = some e ∧
        (process sinF (runOps sinF fresh ops) x).state.MPrev = e.MNew) := by
  have h := runOps_runnable sinF fresh ops fresh_runnable
  exact process_mean_of_nonneg sinF (runOps sinF fresh ops) x h.1 h.2

end JAHysteresisScheduler
